import Mathlib

/-!
Verification of the trace-consolidation pipeline of `plot_micro.py`.

The embedding models one CSV row as a record with optional columns, and a
pandas DataFrame as a list of rows together with column-presence flags.
Times are integers (nanoseconds).  A pandas value that is NaN/NA is `none`.

On sorting: `df.sort_values(c)` with the default kind="quicksort" guarantees
only a permutation of the rows that is sorted by column `c`; the relative
order of rows with equal keys is unspecified (pandas documents only
mergesort/stable as stable).  To keep the pipeline executable the embedding
uses one concrete sorted permutation (`List.insertionSort`).  No theorem
below relies on the tie order this choice fixes: wherever tie order could
matter, the statement either is invariant under permuting equal keys, or
carries a distinct-key hypothesis together with a conjunct showing that
every sorted permutation coincides there.
-/

/-- A trace record after numeric coercion: the required `start_ns`/`end_ns`
columns are integers, the optional columns are `Option Int` (`none` = NaN). -/
structure Row where
  pid : Option Int
  child_index : Option Int
  arrive_ns : Option Int
  start_ns : Int
  end_ns : Int
  duration_ns : Option Int
deriving DecidableEq, Repr

/-- A DataFrame: which optional columns are present, plus the rows. -/
structure DF where
  hasPid : Bool
  hasChild : Bool
  hasArrive : Bool
  hasDuration : Bool
  rows : List Row
deriving DecidableEq, Repr

/-- Comparison by the start column. -/
def startLe (a b : Row) : Prop := a.start_ns ≤ b.start_ns

/-- Strict comparison by the start column. -/
def startLt (a b : Row) : Prop := a.start_ns < b.start_ns

instance : DecidableRel startLe := fun a b =>
  inferInstanceAs (Decidable (a.start_ns ≤ b.start_ns))

instance : DecidableRel startLt := fun a b =>
  inferInstanceAs (Decidable (a.start_ns < b.start_ns))

instance : IsTotal Row startLe := ⟨fun a b => Int.le_total a.start_ns b.start_ns⟩

instance : IsTrans Row startLe := ⟨fun _ _ _ h h2 => le_trans h h2⟩

instance : IsAntisymm Row startLt :=
  ⟨fun _ _ h h2 => absurd h2 (not_lt_of_gt h)⟩

/-- Embedding of `df.sort_values("start_ns")`.  The source guarantees only a
permutation of the rows sorted by start time (the default quicksort is not
stable, so the order of tied start times is unspecified); this definition
picks one concrete sorted permutation so that the pipeline stays executable.
Theorems whose truth could depend on the tie order are stated with
distinct-start hypotheses under which every sorted permutation is equal. -/
def sortByStart (l : List Row) : List Row := l.insertionSort startLe

/-- A raw cell of a numeric CSV column: a number, a non-numeric string, or
an empty cell. -/
inductive RawCell where
  | num (n : Int)
  | text (s : String)
  | missing
deriving DecidableEq, Repr

/-- Embedding of one cell of `pd.to_numeric(col, errors="coerce")`: a value
that fails numeric coercion becomes missing instead of raising. -/
def toNum : RawCell → Option Int
  | .num n => some n
  | .text _ => none
  | .missing => none

/-- A raw CSV row before coercion.  The `pid`/`child_index` columns are not
coerced by the source, so they are kept as already-optional integers. -/
structure RawRow where
  pid : Option Int
  child_index : Option Int
  arrive_ns : RawCell
  start_ns : RawCell
  end_ns : RawCell
  duration_ns : RawCell
deriving DecidableEq, Repr

/-- A raw CSV file: column-presence flags plus rows.  The `start_ns` and
`end_ns` columns must be present (the source indexes them unconditionally). -/
structure RawDF where
  hasPid : Bool
  hasChild : Bool
  hasArrive : Bool
  hasDuration : Bool
  rows : List RawRow
deriving DecidableEq, Repr

/-- Coercion of one raw row, from `read_and_coerce` lines 26-35: the four time
columns are coerced where present; when the `duration_ns` column is absent it
is derived as `end_ns - start_ns`; the row is dropped (`none`) when its
coerced `start_ns` or `end_ns` is missing. -/
def coerceRow (raw : RawDF) (r : RawRow) : Option Row :=
  match toNum r.start_ns, toNum r.end_ns with
  | some s, some e =>
      some { pid := if raw.hasPid then r.pid else none
             child_index := if raw.hasChild then r.child_index else none
             arrive_ns := if raw.hasArrive then toNum r.arrive_ns else none
             start_ns := s
             end_ns := e
             duration_ns := if raw.hasDuration then toNum r.duration_ns else some (e - s) }
  | _, _ => none

/-- The coerced rows that survive the `dropna` on start/end, in input order. -/
def keptRows (raw : RawDF) : List Row := raw.rows.filterMap (coerceRow raw)

/-- `read_and_coerce`: coerce the time columns, derive `duration_ns` when that
column is absent, drop rows missing start or end, and sort by start time. -/
def read_and_coerce (raw : RawDF) : DF :=
  { hasPid := raw.hasPid
    hasChild := raw.hasChild
    hasArrive := raw.hasArrive
    hasDuration := true
    rows := sortByStart (keptRows raw) }

/-- Recomputation of the duration column for one row. -/
def recomputeDuration (r : Row) : Row :=
  { r with duration_ns := some (r.end_ns - r.start_ns) }

/-- The duration-filter step of `prepare_data` lines 203-208: when
`max_duration_ns` is set, the duration column is computed (as end - start)
only if it is absent, then exactly the rows whose duration value compares
`<= max` are kept; a missing duration value fails the comparison (NaN). -/
def durationFilter (max_duration_ns : Option Int) (df : DF) : DF :=
  match max_duration_ns with
  | none => df
  | some m =>
      let df1 := if df.hasDuration then df
                 else { df with hasDuration := true, rows := df.rows.map recomputeDuration }
      { df1 with rows := df1.rows.filter fun r =>
          match r.duration_ns with
          | some d => decide (d ≤ m)
          | none => false }

/-- The owner key of `consolidate_adjacent_by_pid`: the pid column, falling
back to child_index when pid is absent (`hp` = pid column present). -/
def ownerOf (hp : Bool) (r : Row) : Option Int :=
  if hp then r.pid else r.child_index

/-- Scalar equality `cur_pid == pid` as in the source loop: two missing
values (NaN) never compare equal. -/
def ownerEq (a b : Option Int) : Bool :=
  match a, b with
  | some x, some y => decide (x = y)
  | _, _ => false

/-- Same-owner test between two rows under the chosen owner column. -/
def sameOwner (hp : Bool) (a b : Row) : Bool := ownerEq (ownerOf hp a) (ownerOf hp b)

/-- The scan loop of `consolidate_adjacent_by_pid` lines 64-88: `cur` is the
pending run; a row with the same owner extends the run end to the max, any
other row flushes the run and starts a new one.  No rows are skipped. -/
def consLoop (hp : Bool) (cur : Row) : List Row → List Row
  | [] => [cur]
  | r :: rs =>
      if sameOwner hp cur r then
        consLoop hp { cur with end_ns := max cur.end_ns r.end_ns } rs
      else
        cur :: consLoop hp r rs

/-- `consolidate_adjacent_by_pid`: sort by start, collapse adjacent same-owner
runs, recompute durations, sort again.  With no pid and no child_index column
the stage returns its input unchanged, as does an empty input. -/
def consolidate_adjacent_by_pid (df : DF) : DF :=
  if df.rows = [] then df
  else if df.hasPid || df.hasChild then
    let merged := match sortByStart df.rows with
      | [] => []
      | r :: rs => consLoop df.hasPid r rs
    { df with hasDuration := true
              rows := sortByStart (merged.map recomputeDuration) }
  else df

/-- `fillna(-1)` on the arrive column (`ha` = arrive column present). -/
def fillArrive (ha : Bool) (r : Row) : Row :=
  if ha then { r with arrive_ns := some (r.arrive_ns.getD (-1)) } else r

/-- `replace(-1, pd.NA)` on the arrive column, applied on output. -/
def restoreArrive (ha : Bool) (r : Row) : Row :=
  if ha then (if r.arrive_ns = some (-1) then { r with arrive_ns := none } else r) else r

/-- The pandas groupby key over whichever of pid / child_index / arrive_ns
are present; a row with a missing value in a selected key column is dropped
by groupby (result `none`). -/
def keyOf (hp hc ha : Bool) (r : Row) : Option (Option Int × Option Int × Option Int) :=
  if hp ∧ r.pid = none then none
  else if hc ∧ r.child_index = none then none
  else if ha ∧ r.arrive_ns = none then none
  else some (if hp then r.pid else none,
             if hc then r.child_index else none,
             if ha then r.arrive_ns else none)

/-- groupby(sort=False) group order: keys in order of first occurrence. -/
def firstOccurAux {α : Type} [DecidableEq α] (seen : List α) : List α → List α
  | [] => []
  | k :: ks => if k ∈ seen then firstOccurAux seen ks else k :: firstOccurAux (k :: seen) ks

/-- Distinct values of a list in order of first occurrence. -/
def firstOccur {α : Type} [DecidableEq α] (l : List α) : List α := firstOccurAux [] l

/-- The per-group scan of `merge_slices` lines 142-167: `cur` is the pending
merged slice; inverted rows (end <= start) are skipped; a row starting within
`gap` of the pending end extends the pending end to the max; any other row
emits the pending slice and starts a new one. -/
def mergeLoop (gap : Int) (cur : Row) : List Row → List Row
  | [] => [cur]
  | r :: rs =>
      if r.end_ns ≤ r.start_ns then mergeLoop gap cur rs
      else if r.start_ns ≤ cur.end_ns + gap then
        mergeLoop gap { cur with end_ns := max cur.end_ns r.end_ns } rs
      else
        cur :: mergeLoop gap r rs

/-- One group of `merge_slices`: skip inverted rows until the first valid row
seeds the pending slice, then scan.  An all-invalid group emits nothing. -/
def mergeGroup (gap : Int) : List Row → List Row
  | [] => []
  | r :: rs => if r.end_ns ≤ r.start_ns then mergeGroup gap rs else mergeLoop gap r rs

/-- The group keys of `merge_slices` over the arrive-filled rows. -/
def mergeKeys (df : DF) : List (Option Int × Option Int × Option Int) :=
  firstOccur (((df.rows.map (fillArrive df.hasArrive)).filterMap
    (keyOf df.hasPid df.hasChild df.hasArrive)))

/-- The rows of one `merge_slices` group, in original order. -/
def groupRows (df : DF) (k : Option Int × Option Int × Option Int) : List Row :=
  (df.rows.map (fillArrive df.hasArrive)).filter fun r =>
    decide (keyOf df.hasPid df.hasChild df.hasArrive r = some k)

/-- The group key an output row of `merge_slices` belongs to when regrouped:
its key after the arrive fill is reapplied. -/
def outKey (df : DF) (r : Row) : Option (Option Int × Option Int × Option Int) :=
  keyOf df.hasPid df.hasChild df.hasArrive (fillArrive df.hasArrive r)

/-- `merge_slices`: fill missing arrivals with -1, group by the available
key columns (in first-occurrence order), per group sort by start and scan,
then recompute durations, restore the -1 arrival sentinel to missing, and
sort the merged set by start.  The `max_duration_ns` parameter is accepted
but never used by the body (the docstring filter is not implemented).
With no key column at all the stage returns its rows unchanged. -/
def merge_slices (df : DF) (merge_gap_ns : Int) (max_duration_ns : Option Int) : DF :=
  if df.hasPid || df.hasChild || df.hasArrive then
    let merged := (mergeKeys df).flatMap fun k =>
      mergeGroup merge_gap_ns (sortByStart (groupRows df k))
    { df with hasDuration := true
              rows := sortByStart ((merged.map recomputeDuration).map
                        (restoreArrive df.hasArrive)) }
  else { df with rows := df.rows.map (fillArrive df.hasArrive) }

/-- The core pipeline of `prepare_data` lines 198-217: read and coerce, drop
oversized raw rows, then consolidate adjacent same-pid rows (the call to
`merge_slices` is commented out in the source). -/
def prepare_pipeline (raw : RawDF) (max_duration_ns : Option Int) : DF :=
  consolidate_adjacent_by_pid (durationFilter max_duration_ns (read_and_coerce raw))

/-- arrive_or_start for the stacking layout: arrive_ns where present, else
start_ns. -/
def arriveOrStart (r : Row) : Int := r.arrive_ns.getD r.start_ns

/-- The groupby("child_index") keys: the distinct present entity ids in
ascending order (pandas groupby sorts its keys; NaN ids are dropped). -/
def entityIds (rows : List Row) : List Int :=
  ((rows.filterMap Row.child_index).dedup).insertionSort (· ≤ ·)

/-- The group minimum of arrive_or_start for one entity. -/
def minArrive (rows : List Row) (c : Int) : Option Int :=
  ((rows.filter fun r => decide (r.child_index = some c)).map arriveOrStart).min?

/-- The arrival series as (entity, earliest time) pairs, keys ascending. -/
def arrivalPairs (rows : List Row) : List (Int × Int) :=
  (entityIds rows).filterMap fun c => (minArrive rows c).map fun m => (c, m)

/-- Comparison of arrival pairs by their time value. -/
def sndLe (p q : Int × Int) : Prop := p.2 ≤ q.2

instance : DecidableRel sndLe := fun p q => inferInstanceAs (Decidable (p.2 ≤ q.2))

/-- arrival_order of `plot_1d_gantt` lines 347-349: the entity ids of one
permutation of the arrival series sorted by earliest time.  The source's
`sort_values()` (default unstable quicksort) gives no guarantee on the order
of entities whose earliest times tie; the C9 theorem settles only what is
independent of that tie order. -/
def arrivalOrder (rows : List Row) : List Int :=
  ((arrivalPairs rows).insertionSort sndLe).map Prod.fst

/-- arrival_stack: entity to 0-based dense index in arrival order. -/
def stackLevel (rows : List Row) (c : Int) : Nat := (arrivalOrder rows).indexOf c

/-- Module constant BASE_BOTTOM = -0.03 (axes fraction). -/
def BASE_BOTTOM : ℚ := -3 / 100

/-- Module constant STEP = 0.15 (axes fraction). -/
def STEP : ℚ := 15 / 100

/-- Module constant MIN_BOTTOM = -3 (axes fraction). -/
def MIN_BOTTOM : ℚ := -3

/-- The vertical offset of a stack level, `plot_1d_gantt` lines 409-411:
bottom_y = BASE_BOTTOM - stack_idx * STEP, raised to MIN_BOTTOM when below. -/
def bottomOf (stackIdx : Nat) : ℚ :=
  if BASE_BOTTOM - (stackIdx : ℚ) * STEP < MIN_BOTTOM then MIN_BOTTOM
  else BASE_BOTTOM - (stackIdx : ℚ) * STEP

/-- Spec-side definition (refinement target for the adjacent consolidator):
split a sorted sequence into maximal runs of consecutive same-owner rows,
each run given as its first row plus the later rows of the run. -/
def runsByAux (hp : Bool) (first : Row) (racc : List Row) : List Row → List (Row × List Row)
  | [] => [(first, racc)]
  | r :: rs =>
      if sameOwner hp first r then runsByAux hp first (racc ++ [r]) rs
      else (first, racc) :: runsByAux hp r [] rs

/-- Spec-side definition: the maximal same-owner runs of a sequence. -/
def runsBy (hp : Bool) : List Row → List (Row × List Row)
  | [] => []
  | r :: rs => runsByAux hp r [] rs

/-- Spec-side definition: the running maximum of the end times of a run. -/
def runEnd (first : Row) (run : List Row) : Int :=
  run.foldl (fun e r => max e r.end_ns) first.end_ns

/-- Spec-side definition: collapse one run to a single interval: all fields
from the first record, end time the running max of the run ends. -/
def collapseEnds (p : Row × List Row) : Row := { p.1 with end_ns := runEnd p.1 p.2 }

/-- Spec-side definition: one consolidated interval per run, with the
duration recomputed as end - start. -/
def collapseRun (p : Row × List Row) : Row := recomputeDuration (collapseEnds p)

/-- Spec-side comparison for the stacking order: ascending earliest time,
ties broken by entity id ascending. -/
def timeEntityLe (p q : Int × Int) : Prop := p.2 < q.2 ∨ (p.2 = q.2 ∧ p.1 ≤ q.1)

instance : DecidableRel timeEntityLe := fun p q =>
  inferInstanceAs (Decidable (p.2 < q.2 ∨ (p.2 = q.2 ∧ p.1 ≤ q.1)))

/-- Spec-side definition of the stacking order: entities sorted ascending by
earliest known time, ties broken by entity id ascending. -/
def arrivalOrderSpec (rows : List Row) : List Int :=
  ((arrivalPairs rows).insertionSort timeEntityLe).map Prod.fst

/-- Strict comparison of arrival pairs by their time value. -/
def sndLt (p q : Int × Int) : Prop := p.2 < q.2

instance : IsTotal (Int × Int) sndLe := ⟨fun p q => Int.le_total p.2 q.2⟩

instance : IsTrans (Int × Int) sndLe := ⟨fun _ _ _ h h2 => le_trans h h2⟩

instance : IsAntisymm (Int × Int) sndLt :=
  ⟨fun p q h h2 => by exfalso; unfold sndLt at h h2; omega⟩

instance : IsTotal (Int × Int) timeEntityLe :=
  ⟨fun p q => by unfold timeEntityLe; omega⟩

instance : IsTrans (Int × Int) timeEntityLe :=
  ⟨fun p q x h h2 => by unfold timeEntityLe at h h2 ⊢; omega⟩

/-- Separation of two merged intervals under a merge gap: the later one
starts strictly beyond the earlier end plus the gap. -/
def sepBy (gap : Int) (a b : Row) : Prop := a.end_ns + gap < b.start_ns

/-- Shorthand for a concrete coerced row with no entity/arrival data. -/
def mkRow (p : Option Int) (s e : Int) (d : Option Int) : Row :=
  { pid := p, child_index := none, arrive_ns := none, start_ns := s, end_ns := e,
    duration_ns := d }

/-- Shorthand for a concrete raw row with no entity/arrival data. -/
def mkRaw (p : Option Int) (s e d : RawCell) : RawRow :=
  { pid := p, child_index := none, arrive_ns := .missing, start_ns := s, end_ns := e,
    duration_ns := d }

/-- Concrete input with an inverted record (start 10, end 5), duration column
absent. -/
def rawC4 : RawDF :=
  { hasPid := true, hasChild := false, hasArrive := false, hasDuration := false,
    rows := [mkRaw (some 1) (.num 10) (.num 5) .missing] }

/-- Concrete frame with one valid and one inverted record of the same pid. -/
def dfC4w : DF :=
  { hasPid := true, hasChild := false, hasArrive := false, hasDuration := true,
    rows := [mkRow (some 1) 0 5 (some 5), mkRow (some 1) 10 3 (some (-7))] }

/-- The surviving merged row of `dfC4w`. -/
def rowC4w : Row := mkRow (some 1) 0 5 (some 5)

/-- Concrete frame without any owner column and with unsorted rows. -/
def dfC5 : DF :=
  { hasPid := false, hasChild := false, hasArrive := false, hasDuration := true,
    rows := [mkRow none 10 20 (some 10), mkRow none 0 4 (some 4)] }

/-- Concrete input whose duration cell fails numeric coercion. -/
def rawC6 : RawDF :=
  { hasPid := true, hasChild := false, hasArrive := false, hasDuration := true,
    rows := [mkRaw (some 1) (.num 0) (.num 10) (.text "x")] }

/-- Concrete frame with a present, in-range duration value. -/
def dfC6w : DF :=
  { hasPid := true, hasChild := false, hasArrive := false, hasDuration := true,
    rows := [mkRow (some 1) 0 10 (some 10)] }

/-- The single row of `dfC6w`. -/
def rowC6w : Row := mkRow (some 1) 0 10 (some 10)

/-- Concrete input with two small same-pid rows whose merged span (20) exceeds
the duration ceiling (10) used with it. -/
def rawC7 : RawDF :=
  { hasPid := true, hasChild := false, hasArrive := false, hasDuration := true,
    rows := [mkRaw (some 1) (.num 0) (.num 5) (.num 5),
             mkRaw (some 1) (.num 15) (.num 20) (.num 5)] }

/-- Concrete input whose duration column (99) disagrees with end - start (10). -/
def rawC10 : RawDF :=
  { hasPid := true, hasChild := false, hasArrive := false, hasDuration := true,
    rows := [mkRaw (some 1) (.num 0) (.num 10) (.num 99)] }

/-- Concrete sorted frame with two same-pid rows and one other-pid row. -/
def dfC3w : DF :=
  { hasPid := true, hasChild := false, hasArrive := false, hasDuration := true,
    rows := [mkRow (some 1) 0 10 (some 10), mkRow (some 1) 2 30 (some 28),
             mkRow (some 2) 40 50 (some 10)] }

/-- Concrete frame used to instantiate the grouped-merge claims. -/
def dfC2w : DF :=
  { hasPid := true, hasChild := false, hasArrive := false, hasDuration := true,
    rows := [mkRow (some 1) 0 10 (some 10), mkRow (some 1) 12 20 (some 8),
             mkRow (some 2) 20 30 (some 10)] }

/-- Concrete final rows used to instantiate the stacking-layout claim. -/
def rowsC9 : List Row :=
  [{ pid := some 1, child_index := some 2, arrive_ns := some 50, start_ns := 60,
     end_ns := 70, duration_ns := some 10 },
   { pid := some 1, child_index := some 1, arrive_ns := none, start_ns := 55,
     end_ns := 58, duration_ns := some 3 }]

/-- Concrete raw input with two records tied on start_ns = 0. -/
def rawC8 : RawDF :=
  { hasPid := true, hasChild := false, hasArrive := false, hasDuration := true,
    rows := [mkRaw (some 1) (.num 0) (.num 10) (.num 10),
             mkRaw (some 2) (.num 0) (.num 7) (.num 7)] }

/-- Concrete final rows whose two entities tie on earliest time 50. -/
def rowsC9tied : List Row :=
  [{ pid := some 1, child_index := some 1, arrive_ns := some 50, start_ns := 60,
     end_ns := 70, duration_ns := some 10 },
   { pid := some 1, child_index := some 2, arrive_ns := some 50, start_ns := 65,
     end_ns := 80, duration_ns := some 15 }]

/-! Basic properties of the sort embedding. -/

theorem sortByStart_perm (l : List Row) : (sortByStart l).Perm l :=
  List.perm_insertionSort startLe l

theorem sortByStart_sorted (l : List Row) : List.Sorted startLe (sortByStart l) :=
  List.sorted_insertionSort startLe l

theorem sortByStart_mem {l : List Row} {x : Row} : x ∈ sortByStart l ↔ x ∈ l :=
  List.mem_insertionSort startLe

theorem sortByStart_of_sorted {l : List Row} (h : List.Sorted startLe l) :
    sortByStart l = l :=
  h.insertionSort_eq

theorem sorted_lt_of_nodup {l : List Row} (hs : List.Sorted startLe l)
    (hnd : (l.map Row.start_ns).Nodup) : List.Sorted startLt l := by
  have hne : List.Pairwise (fun a b : Row => a.start_ns ≠ b.start_ns) l :=
    List.pairwise_map.1 hnd
  refine (hs.and hne).imp ?_
  intro a b hab
  exact lt_of_le_of_ne hab.1 hab.2

/-- With pairwise-distinct start keys, a sorted arrangement of a multiset of
rows is unique: any two sorted permutations are equal.  This is what makes
distinct-start statements independent of the unspecified tie order of the
sort in the source. -/
theorem sorted_perm_unique {l1 l2 : List Row} (h : l1.Perm l2)
    (h1 : List.Sorted startLe l1) (h2 : List.Sorted startLe l2)
    (hnd : (l2.map Row.start_ns).Nodup) : l1 = l2 := by
  have hnd1 : (l1.map Row.start_ns).Nodup := ((h.map Row.start_ns).nodup_iff).2 hnd
  exact List.eq_of_perm_of_sorted h (sorted_lt_of_nodup h1 hnd1)
    (sorted_lt_of_nodup h2 hnd)

/-! Properties of first-occurrence deduplication (groupby group order). -/

theorem mem_firstOccurAux {α : Type} [DecidableEq α] {l : List α} :
    ∀ {seen : List α} {k : α}, k ∈ firstOccurAux seen l ↔ k ∈ l ∧ k ∉ seen := by
  induction l with
  | nil => intro seen k; simp [firstOccurAux]
  | cons x xs ih =>
      intro seen k
      by_cases hx : x ∈ seen
      · rw [show firstOccurAux seen (x :: xs) = firstOccurAux seen xs by
          simp [firstOccurAux, if_pos hx], ih, List.mem_cons]
        constructor
        · rintro ⟨h1, h2⟩; exact ⟨Or.inr h1, h2⟩
        · rintro ⟨h1 | h1, h2⟩
          · subst h1; exact absurd hx h2
          · exact ⟨h1, h2⟩
      · rw [show firstOccurAux seen (x :: xs) = x :: firstOccurAux (x :: seen) xs by
          simp [firstOccurAux, if_neg hx], List.mem_cons, List.mem_cons, ih]
        constructor
        · rintro (h | ⟨h1, h2⟩)
          · subst h; exact ⟨Or.inl rfl, hx⟩
          · refine ⟨Or.inr h1, fun hk => h2 (List.mem_cons_of_mem x hk)⟩
        · rintro ⟨h1 | h1, h2⟩
          · exact Or.inl h1
          · by_cases hkx : k = x
            · exact Or.inl hkx
            · refine Or.inr ⟨h1, fun hs => ?_⟩
              rcases List.mem_cons.1 hs with h | h
              · exact hkx h
              · exact h2 h

theorem nodup_firstOccurAux {α : Type} [DecidableEq α] {l : List α} :
    ∀ {seen : List α}, (firstOccurAux seen l).Nodup := by
  induction l with
  | nil => intro seen; simp [firstOccurAux]
  | cons x xs ih =>
      intro seen
      by_cases hx : x ∈ seen
      · rw [show firstOccurAux seen (x :: xs) = firstOccurAux seen xs by
          simp [firstOccurAux, if_pos hx]]
        exact ih
      · rw [show firstOccurAux seen (x :: xs) = x :: firstOccurAux (x :: seen) xs by
          simp [firstOccurAux, if_neg hx]]
        refine List.Nodup.cons ?_ ih
        intro hmem
        exact (mem_firstOccurAux.1 hmem).2 (List.mem_cons_self x seen)

theorem mem_firstOccur {α : Type} [DecidableEq α] {l : List α} {k : α} :
    k ∈ firstOccur l ↔ k ∈ l := by
  simp [firstOccur, mem_firstOccurAux]

theorem nodup_firstOccur {α : Type} [DecidableEq α] (l : List α) :
    (firstOccur l).Nodup :=
  nodup_firstOccurAux

/-! Generic grouping lemmas for the groupby-based merge. -/

theorem flatMap_congr_mem {α β : Type} {ks : List α} {f g : α → List β}
    (h : ∀ k ∈ ks, f k = g k) : ks.flatMap f = ks.flatMap g := by
  induction ks with
  | nil => rfl
  | cons k ks ih =>
      simp only [List.flatMap_cons, h k (List.mem_cons_self k ks),
        ih (fun k2 hk2 => h k2 (List.mem_cons_of_mem k hk2))]

theorem partition_perm {α β : Type} [DecidableEq β] (key : α → Option β) :
    ∀ (ks : List β) (l : List α), ks.Nodup →
      (∀ a ∈ l, ∀ k, key a = some k → k ∈ ks) →
      (ks.flatMap fun k => l.filter fun a => decide (key a = some k)).Perm
        (l.filter fun a => (key a).isSome) := by
  intro ks
  induction ks with
  | nil =>
      intro l _ hcov
      have : (l.filter fun a => (key a).isSome) = [] := by
        rw [List.filter_eq_nil_iff]
        intro a ha hsome
        obtain ⟨k, hk⟩ := Option.isSome_iff_exists.1 hsome
        exact absurd (hcov a ha k hk) (List.not_mem_nil k)
      rw [this]; rfl
  | cons k ks ih =>
      intro l hnd hcov
      have hknotin : k ∉ ks := (List.nodup_cons.1 hnd).1
      have hndtail : ks.Nodup := (List.nodup_cons.1 hnd).2
      rw [List.flatMap_cons]
      set l' := l.filter (fun a => !decide (key a = some k)) with hl'
      have hstep1 : (ks.flatMap fun k2 => l.filter fun a => decide (key a = some k2)) =
          ks.flatMap fun k2 => l'.filter fun a => decide (key a = some k2) := by
        refine flatMap_congr_mem ?_
        intro k2 hk2
        have hk2ne : k2 ≠ k := fun h => hknotin (h ▸ hk2)
        rw [hl', List.filter_filter]
        refine (List.filter_congr ?_).symm
        intro a _
        by_cases h : key a = some k2
        · simp [h, hk2ne]
        · simp [h]
      have hcov' : ∀ a ∈ l', ∀ k2, key a = some k2 → k2 ∈ ks := by
        intro a ha k2 hk2
        have hal : a ∈ l := List.mem_of_mem_filter ha
        have hne : ¬ key a = some k := by
          have := List.of_mem_filter ha
          simpa using this
        rcases List.mem_cons.1 (hcov a hal k2 hk2) with h | h
        · exact absurd (h ▸ hk2) hne
        · exact h
      have hIH := ih l' hndtail hcov'
      have hsplit : ((l.filter fun a => (key a).isSome).filter
            (fun a => decide (key a = some k)) ++
          (l.filter fun a => (key a).isSome).filter
            (fun a => !decide (key a = some k))).Perm
          (l.filter fun a => (key a).isSome) :=
        List.filter_append_perm _ _
      have heq1 : (l.filter fun a => (key a).isSome).filter
          (fun a => decide (key a = some k)) = l.filter fun a => decide (key a = some k) := by
        rw [List.filter_filter]
        refine List.filter_congr ?_
        intro a _
        by_cases h : key a = some k
        · simp [h]
        · simp [h]
      have heq2 : (l.filter fun a => (key a).isSome).filter
          (fun a => !decide (key a = some k)) = l'.filter fun a => (key a).isSome := by
        rw [hl', List.filter_filter, List.filter_filter]
        refine List.filter_congr ?_
        intro a _
        exact Bool.and_comm _ _
      rw [hstep1]
      refine ((hIH.append_left (l.filter fun a => decide (key a = some k))).trans ?_)
      rw [← heq1, ← heq2]
      exact hsplit

theorem flatMap_filter_eq {α β : Type} [DecidableEq β] (key : α → Option β)
    (g : β → List α) :
    ∀ (ks : List β), ks.Nodup → (∀ k2 ∈ ks, ∀ x ∈ g k2, key x = some k2) → ∀ k,
      ((ks.flatMap g).filter fun x => decide (key x = some k)) =
        if k ∈ ks then g k else [] := by
  intro ks
  induction ks with
  | nil => intro _ _ k; simp
  | cons k1 ks ih =>
      intro hnd hall k
      have hknotin : k1 ∉ ks := (List.nodup_cons.1 hnd).1
      have hndtail : ks.Nodup := (List.nodup_cons.1 hnd).2
      have halltail : ∀ k2 ∈ ks, ∀ x ∈ g k2, key x = some k2 :=
        fun k2 hk2 => hall k2 (List.mem_cons_of_mem _ hk2)
      rw [List.flatMap_cons, List.filter_append, ih hndtail halltail k]
      by_cases hk : k = k1
      · subst hk
        have h1 : (g k).filter (fun x => decide (key x = some k)) = g k := by
          rw [List.filter_eq_self]
          intro x hx
          simp [hall k (List.mem_cons_self k ks) x hx]
        rw [h1, if_neg hknotin, if_pos (List.mem_cons_self k ks)]
        simp
      · have h1 : (g k1).filter (fun x => decide (key x = some k)) = [] := by
          rw [List.filter_eq_nil_iff]
          intro x hx
          have h2 := hall k1 (List.mem_cons_self k1 ks) x hx
          simp only [h2, decide_eq_true_eq, Option.some.injEq]
          exact fun h => hk h.symm
        rw [h1]
        simp only [List.nil_append, List.mem_cons]
        by_cases hks : k ∈ ks
        · rw [if_pos hks, if_pos (Or.inr hks)]
        · rw [if_neg hks, if_neg ?_]
          rintro (h | h)
          · exact hk h
          · exact hks h

theorem flatMap_filter_eq_of_mem {α β : Type} [DecidableEq β] (key : α → Option β)
    (g : β → List α) (ks : List β) (hnd : ks.Nodup)
    (hall : ∀ k2 ∈ ks, ∀ x ∈ g k2, key x = some k2) {k : β} (hk : k ∈ ks) :
    ((ks.flatMap g).filter fun x => decide (key x = some k)) = g k := by
  rw [flatMap_filter_eq key g ks hnd hall k, if_pos hk]

theorem flatMap_filter_eq_of_not_mem {α β : Type} [DecidableEq β] (key : α → Option β)
    (g : β → List α) (ks : List β) (hnd : ks.Nodup)
    (hall : ∀ k2 ∈ ks, ∀ x ∈ g k2, key x = some k2) {k : β} (hk : k ∉ ks) :
    ((ks.flatMap g).filter fun x => decide (key x = some k)) = [] := by
  rw [flatMap_filter_eq key g ks hnd hall k, if_neg hk]

/-! Pointwise facts about the row transformers. -/

theorem fillArrive_start (ha : Bool) (r : Row) : (fillArrive ha r).start_ns = r.start_ns := by
  unfold fillArrive; split <;> rfl

theorem fillArrive_end (ha : Bool) (r : Row) : (fillArrive ha r).end_ns = r.end_ns := by
  unfold fillArrive; split <;> rfl

theorem fillArrive_duration (ha : Bool) (r : Row) :
    (fillArrive ha r).duration_ns = r.duration_ns := by
  unfold fillArrive; split <;> rfl

theorem fillArrive_arrive_ne_none (r : Row) : (fillArrive true r).arrive_ns ≠ none := by
  unfold fillArrive; simp

theorem restoreArrive_start (ha : Bool) (r : Row) :
    (restoreArrive ha r).start_ns = r.start_ns := by
  unfold restoreArrive
  split
  · split <;> rfl
  · rfl

theorem restoreArrive_end (ha : Bool) (r : Row) :
    (restoreArrive ha r).end_ns = r.end_ns := by
  unfold restoreArrive
  split
  · split <;> rfl
  · rfl

theorem restoreArrive_duration (ha : Bool) (r : Row) :
    (restoreArrive ha r).duration_ns = r.duration_ns := by
  unfold restoreArrive
  split
  · split <;> rfl
  · rfl

theorem restoreArrive_arrive_ne (r : Row) :
    (restoreArrive true r).arrive_ns ≠ some (-1) := by
  unfold restoreArrive
  rw [if_pos rfl]
  split
  · simp
  · next h => exact h

theorem fill_restore_id (ha : Bool) (r : Row) (h : ha = true → r.arrive_ns ≠ none) :
    fillArrive ha (restoreArrive ha r) = r := by
  cases ha with
  | false => rfl
  | true =>
      have harr := h rfl
      obtain ⟨p, c, a, s, e, d⟩ := r
      cases a with
      | none => exact absurd rfl harr
      | some v =>
          by_cases hv : v = -1
          · subst hv
            simp [restoreArrive, fillArrive]
          · simp [restoreArrive, fillArrive, hv]

theorem restore_fill_id (ha : Bool) (r : Row) (h : ha = true → r.arrive_ns ≠ some (-1)) :
    restoreArrive ha (fillArrive ha r) = r := by
  cases ha with
  | false => rfl
  | true =>
      have harr := h rfl
      obtain ⟨p, c, a, s, e, d⟩ := r
      cases a with
      | none => simp [fillArrive, restoreArrive]
      | some v =>
          have hv : v ≠ -1 := fun hv => harr (by simp [hv])
          simp [fillArrive, restoreArrive, hv]

theorem recompute_start (r : Row) : (recomputeDuration r).start_ns = r.start_ns := rfl

theorem recompute_end (r : Row) : (recomputeDuration r).end_ns = r.end_ns := rfl

theorem recompute_arrive (r : Row) : (recomputeDuration r).arrive_ns = r.arrive_ns := rfl

theorem recompute_duration_eq (r : Row) :
    (recomputeDuration r).duration_ns = some (r.end_ns - r.start_ns) := rfl

theorem recompute_idem (r : Row) :
    recomputeDuration (recomputeDuration r) = recomputeDuration r := rfl

theorem keyOf_recompute (hp hc ha : Bool) (r : Row) :
    keyOf hp hc ha (recomputeDuration r) = keyOf hp hc ha r := rfl

theorem keyOf_setEnd (hp hc ha : Bool) (r : Row) (x : Int) :
    keyOf hp hc ha { r with end_ns := x } = keyOf hp hc ha r := rfl

/-! Properties of the per-group merge scan. -/

theorem mergeLoop_forall (gap : Int) (P : Row → Prop)
    (hP : ∀ (a : Row) (x : Int), P a → P { a with end_ns := x }) :
    ∀ (l : List Row) (cur : Row), P cur → (∀ r ∈ l, P r) →
      ∀ x ∈ mergeLoop gap cur l, P x := by
  intro l
  induction l with
  | nil =>
      intro cur hc _ x hx
      rw [mergeLoop] at hx
      rw [List.mem_singleton.1 hx]
      exact hc
  | cons r rs ih =>
      intro cur hc hl x hx
      rw [mergeLoop] at hx
      have hr : P r := hl r (List.mem_cons_self r rs)
      have hrs : ∀ r2 ∈ rs, P r2 := fun r2 h2 => hl r2 (List.mem_cons_of_mem r h2)
      by_cases h1 : r.end_ns ≤ r.start_ns
      · rw [if_pos h1] at hx
        exact ih cur hc hrs x hx
      · rw [if_neg h1] at hx
        by_cases h2 : r.start_ns ≤ cur.end_ns + gap
        · rw [if_pos h2] at hx
          exact ih _ (hP cur _ hc) hrs x hx
        · rw [if_neg h2] at hx
          rcases List.mem_cons.1 hx with h | h
          · rw [h]; exact hc
          · exact ih r hr hrs x h

theorem mergeLoop_valid (gap : Int) :
    ∀ (l : List Row) (cur : Row), cur.start_ns < cur.end_ns →
      ∀ x ∈ mergeLoop gap cur l, x.start_ns < x.end_ns := by
  intro l
  induction l with
  | nil =>
      intro cur hc x hx
      rw [mergeLoop] at hx
      rw [List.mem_singleton.1 hx]
      exact hc
  | cons r rs ih =>
      intro cur hc x hx
      rw [mergeLoop] at hx
      by_cases h1 : r.end_ns ≤ r.start_ns
      · rw [if_pos h1] at hx
        exact ih cur hc x hx
      · rw [if_neg h1] at hx
        by_cases h2 : r.start_ns ≤ cur.end_ns + gap
        · rw [if_pos h2] at hx
          refine ih _ ?_ x hx
          show cur.start_ns < max cur.end_ns r.end_ns
          exact lt_max_of_lt_left hc
        · rw [if_neg h2] at hx
          rcases List.mem_cons.1 hx with h | h
          · rw [h]; exact hc
          · exact ih r (lt_of_not_ge h1) x h

theorem mergeLoop_start_mem (gap : Int) (l : List Row) (cur : Row) :
    ∀ x ∈ mergeLoop gap cur l,
      x.start_ns = cur.start_ns ∨ ∃ r ∈ l, x.start_ns = r.start_ns := by
  refine mergeLoop_forall gap _ ?_ l cur (Or.inl rfl) ?_
  · intro a x h
    exact h
  · intro r hr
    exact Or.inr ⟨r, hr, rfl⟩

theorem mergeLoop_sep (gap : Int) :
    ∀ (l : List Row) (cur : Row), List.Sorted startLe l →
      List.Pairwise (sepBy gap) (mergeLoop gap cur l) := by
  intro l
  induction l with
  | nil =>
      intro cur _
      rw [mergeLoop]
      exact List.pairwise_singleton _ _
  | cons r rs ih =>
      intro cur hs
      have hs2 : List.Sorted startLe rs := hs.of_cons
      rw [mergeLoop]
      by_cases h1 : r.end_ns ≤ r.start_ns
      · rw [if_pos h1]
        exact ih cur hs2
      · rw [if_neg h1]
        by_cases h2 : r.start_ns ≤ cur.end_ns + gap
        · rw [if_pos h2]
          exact ih _ hs2
        · rw [if_neg h2]
          refine List.Pairwise.cons ?_ (ih r hs2)
          intro x hx
          rcases mergeLoop_start_mem gap rs r x hx with h | ⟨r2, hr2, h⟩
          · show cur.end_ns + gap < x.start_ns
            omega
          · have : r.start_ns ≤ r2.start_ns := List.rel_of_sorted_cons hs r2 hr2
            show cur.end_ns + gap < x.start_ns
            omega

theorem mergeLoop_id (gap : Int) :
    ∀ (l : List Row) (cur : Row), List.Pairwise (sepBy gap) (cur :: l) →
      (∀ r ∈ l, r.start_ns < r.end_ns) → mergeLoop gap cur l = cur :: l := by
  intro l
  induction l with
  | nil => intro cur _ _; rw [mergeLoop]
  | cons r rs ih =>
      intro cur hp hv
      have hsep : sepBy gap cur r := (List.pairwise_cons.1 hp).1 r (List.mem_cons_self r rs)
      have hvr : r.start_ns < r.end_ns := hv r (List.mem_cons_self r rs)
      rw [mergeLoop, if_neg (by omega), if_neg (by show ¬ r.start_ns ≤ cur.end_ns + gap; have := hsep; unfold sepBy at this; omega)]
      rw [ih r ((List.pairwise_cons.1 hp).2) (fun r2 h2 => hv r2 (List.mem_cons_of_mem r h2))]

theorem mergeGroup_valid (gap : Int) :
    ∀ (l : List Row), ∀ x ∈ mergeGroup gap l, x.start_ns < x.end_ns := by
  intro l
  induction l with
  | nil => intro x hx; rw [mergeGroup] at hx; exact absurd hx (List.not_mem_nil x)
  | cons r rs ih =>
      intro x hx
      rw [mergeGroup] at hx
      by_cases h1 : r.end_ns ≤ r.start_ns
      · rw [if_pos h1] at hx
        exact ih x hx
      · rw [if_neg h1] at hx
        exact mergeLoop_valid gap rs r (lt_of_not_ge h1) x hx

theorem mergeGroup_forall (gap : Int) (P : Row → Prop)
    (hP : ∀ (a : Row) (x : Int), P a → P { a with end_ns := x }) :
    ∀ (l : List Row), (∀ r ∈ l, P r) → ∀ x ∈ mergeGroup gap l, P x := by
  intro l
  induction l with
  | nil => intro _ x hx; rw [mergeGroup] at hx; exact absurd hx (List.not_mem_nil x)
  | cons r rs ih =>
      intro hl x hx
      rw [mergeGroup] at hx
      have hrs : ∀ r2 ∈ rs, P r2 := fun r2 h2 => hl r2 (List.mem_cons_of_mem r h2)
      by_cases h1 : r.end_ns ≤ r.start_ns
      · rw [if_pos h1] at hx
        exact ih hrs x hx
      · rw [if_neg h1] at hx
        exact mergeLoop_forall gap P hP rs r (hl r (List.mem_cons_self r rs)) hrs x hx

theorem mergeGroup_sep (gap : Int) :
    ∀ (l : List Row), List.Sorted startLe l →
      List.Pairwise (sepBy gap) (mergeGroup gap l) := by
  intro l
  induction l with
  | nil => intro _; rw [mergeGroup]; exact List.Pairwise.nil
  | cons r rs ih =>
      intro hs
      rw [mergeGroup]
      by_cases h1 : r.end_ns ≤ r.start_ns
      · rw [if_pos h1]
        exact ih hs.of_cons
      · rw [if_neg h1]
        exact mergeLoop_sep gap rs r hs.of_cons

theorem mergeGroup_id (gap : Int) (l : List Row)
    (hp : List.Pairwise (sepBy gap) l) (hv : ∀ r ∈ l, r.start_ns < r.end_ns) :
    mergeGroup gap l = l := by
  cases l with
  | nil => rw [mergeGroup]
  | cons r rs =>
      have hvr : r.start_ns < r.end_ns := hv r (List.mem_cons_self r rs)
      rw [mergeGroup, if_neg (by omega)]
      exact mergeLoop_id gap rs r hp (fun r2 h2 => hv r2 (List.mem_cons_of_mem r h2))

theorem mergeGroup_sorted_strict (gap : Int) (hgap : 0 ≤ gap) (l : List Row)
    (hs : List.Sorted startLe l) :
    List.Sorted startLt (mergeGroup gap l) := by
  have hsep := mergeGroup_sep gap l hs
  refine hsep.imp_of_mem ?_
  intro a b ha hb hab
  have hva := mergeGroup_valid gap l a ha
  show a.start_ns < b.start_ns
  unfold sepBy at hab
  omega

/-! Properties of the adjacent consolidation scan. -/

theorem runEnd_append (first : Row) (racc : List Row) (r : Row) :
    runEnd first (racc ++ [r]) = max (runEnd first racc) r.end_ns := by
  unfold runEnd
  rw [List.foldl_append]
  rfl

theorem collapseEnds_start (p : Row × List Row) :
    (collapseEnds p).start_ns = p.1.start_ns := rfl

theorem collapseRun_start (p : Row × List Row) :
    (collapseRun p).start_ns = p.1.start_ns := rfl

theorem sameOwner_collapseRun (hp : Bool) (p q : Row × List Row) :
    sameOwner hp (collapseRun p) (collapseRun q) = sameOwner hp p.1 q.1 := rfl

theorem consLoop_runsByAux (hp : Bool) :
    ∀ (l : List Row) (first : Row) (racc : List Row),
      consLoop hp { first with end_ns := runEnd first racc } l =
        (runsByAux hp first racc l).map collapseEnds := by
  intro l
  induction l with
  | nil => intro first racc; rfl
  | cons r rs ih =>
      intro first racc
      rw [consLoop, runsByAux]
      have hso : sameOwner hp { first with end_ns := runEnd first racc } r =
          sameOwner hp first r := rfl
      by_cases h : sameOwner hp first r = true
      · rw [if_pos (hso ▸ h), if_pos h]
        have hcomp : ({ { first with end_ns := runEnd first racc } with
            end_ns := max ({ first with end_ns := runEnd first racc } : Row).end_ns r.end_ns } : Row) =
            { first with end_ns := runEnd first (racc ++ [r]) } := by
          rw [runEnd_append]
        rw [hcomp]
        exact ih first (racc ++ [r])
      · rw [if_neg (hso ▸ h), if_neg h, List.map_cons]
        have h2 : consLoop hp r rs = (runsByAux hp r [] rs).map collapseEnds :=
          ih r []
        rw [h2]
        show _ :: _ = collapseEnds (first, racc) :: _
        rw [show collapseEnds (first, racc) =
          { first with end_ns := runEnd first racc } from rfl]

theorem consLoop_runs (hp : Bool) (r : Row) (rs : List Row) :
    consLoop hp r rs = (runsBy hp (r :: rs)).map collapseEnds :=
  consLoop_runsByAux hp rs r []

theorem runsByAux_fst_mem (hp : Bool) :
    ∀ (l : List Row) (first : Row) (racc : List Row),
      ∀ p ∈ runsByAux hp first racc l, p.1 = first ∨ p.1 ∈ l := by
  intro l
  induction l with
  | nil =>
      intro first racc p hp2
      rw [runsByAux] at hp2
      rw [List.mem_singleton.1 hp2]
      exact Or.inl rfl
  | cons r rs ih =>
      intro first racc p hp2
      rw [runsByAux] at hp2
      by_cases h : sameOwner hp first r = true
      · rw [if_pos h] at hp2
        rcases ih first (racc ++ [r]) p hp2 with h2 | h2
        · exact Or.inl h2
        · exact Or.inr (List.mem_cons_of_mem r h2)
      · rw [if_neg h] at hp2
        rcases List.mem_cons.1 hp2 with h2 | h2
        · rw [h2]; exact Or.inl rfl
        · rcases ih r [] p h2 with h3 | h3
          · exact Or.inr (h3 ▸ List.mem_cons_self r rs)
          · exact Or.inr (List.mem_cons_of_mem r h3)

theorem runsByAux_pairwise (hp : Bool) :
    ∀ (l : List Row) (first : Row) (racc : List Row),
      List.Sorted startLe (first :: l) →
      List.Pairwise (fun p q : Row × List Row => startLe p.1 q.1)
        (runsByAux hp first racc l) := by
  intro l
  induction l with
  | nil =>
      intro first racc _
      rw [runsByAux]
      exact List.pairwise_singleton _ _
  | cons r rs ih =>
      intro first racc hs
      rw [runsByAux]
      have hsub : (first :: rs).Sublist (first :: r :: rs) :=
        List.Sublist.cons₂ first (List.sublist_cons_self r rs)
      by_cases h : sameOwner hp first r = true
      · rw [if_pos h]
        exact ih first (racc ++ [r]) (List.Pairwise.sublist hsub hs)
      · rw [if_neg h]
        refine List.Pairwise.cons ?_ (ih r [] hs.of_cons)
        intro q hq
        rcases runsByAux_fst_mem hp rs r [] q hq with h2 | h2
        · rw [h2]
          exact List.rel_of_sorted_cons hs r (List.mem_cons_self r rs)
        · exact List.rel_of_sorted_cons hs q.1 (List.mem_cons_of_mem r h2)

theorem runsByAux_head_fst (hp : Bool) :
    ∀ (l : List Row) (first : Row) (racc : List Row),
      ∃ q t, runsByAux hp first racc l = q :: t ∧ q.1 = first := by
  intro l
  induction l with
  | nil => intro first racc; exact ⟨(first, racc), [], rfl, rfl⟩
  | cons r rs ih =>
      intro first racc
      rw [runsByAux]
      by_cases h : sameOwner hp first r = true
      · rw [if_pos h]
        exact ih first (racc ++ [r])
      · rw [if_neg h]
        exact ⟨(first, racc), _, rfl, rfl⟩

theorem runsByAux_chain_owner (hp : Bool) :
    ∀ (l : List Row) (first : Row) (racc : List Row),
      List.Chain' (fun p q : Row × List Row => sameOwner hp p.1 q.1 = false)
        (runsByAux hp first racc l) := by
  intro l
  induction l with
  | nil => intro first racc; rw [runsByAux]; exact List.chain'_singleton _
  | cons r rs ih =>
      intro first racc
      rw [runsByAux]
      by_cases h : sameOwner hp first r = true
      · rw [if_pos h]
        exact ih first (racc ++ [r])
      · rw [if_neg h]
        obtain ⟨q, t, heq, hfst⟩ := runsByAux_head_fst hp rs r []
        rw [heq]
        refine List.Chain'.cons ?_ (heq ▸ ih r [])
        rw [hfst]
        exact Bool.eq_false_iff.2 h

/-- The consolidated rows, described by the spec-side run decomposition: one
collapsed interval per maximal same-owner run of the start-sorted input. -/
theorem consolidate_rows_eq (df : DF) (hcol : (df.hasPid || df.hasChild) = true) :
    (consolidate_adjacent_by_pid df).rows =
      (runsBy df.hasPid (sortByStart df.rows)).map collapseRun := by
  by_cases hne : df.rows = []
  · rw [consolidate_adjacent_by_pid, if_pos hne, hne]
    rfl
  · rw [consolidate_adjacent_by_pid, if_neg hne, if_pos hcol]
    have hnil : sortByStart df.rows ≠ [] := by
      intro h
      have h1 := sortByStart_perm df.rows
      rw [h] at h1
      exact hne h1.symm.eq_nil
    obtain ⟨r, rs, heq⟩ := List.exists_cons_of_ne_nil hnil
    rw [heq]
    simp only
    rw [consLoop_runs df.hasPid r rs, List.map_map]
    have hsorted : List.Sorted startLe
        ((runsBy df.hasPid (r :: rs)).map (recomputeDuration ∘ collapseEnds)) := by
      have hs1 : List.Sorted startLe (r :: rs) := heq ▸ sortByStart_sorted df.rows
      have hp2 := runsByAux_pairwise df.hasPid rs r [] hs1
      rw [runsBy]
      refine List.pairwise_map.2 ?_
      refine hp2.imp ?_
      intro a b hab
      exact hab
    rw [sortByStart_of_sorted hsorted]
    rfl

theorem runsByAux_pairwise_lt (hp : Bool) :
    ∀ (l : List Row) (first : Row) (racc : List Row),
      List.Pairwise startLt (first :: l) →
      List.Pairwise (fun p q : Row × List Row => startLt p.1 q.1)
        (runsByAux hp first racc l) := by
  intro l
  induction l with
  | nil =>
      intro first racc _
      rw [runsByAux]
      exact List.pairwise_singleton _ _
  | cons r rs ih =>
      intro first racc hs
      rw [runsByAux]
      have hsub : (first :: rs).Sublist (first :: r :: rs) :=
        List.Sublist.cons₂ first (List.sublist_cons_self r rs)
      by_cases h : sameOwner hp first r = true
      · rw [if_pos h]
        exact ih first (racc ++ [r]) (List.Pairwise.sublist hsub hs)
      · rw [if_neg h]
        refine List.Pairwise.cons ?_ (ih r [] (List.pairwise_cons.1 hs).2)
        intro q hq
        rcases runsByAux_fst_mem hp rs r [] q hq with h2 | h2
        · rw [h2]
          exact (List.pairwise_cons.1 hs).1 r (List.mem_cons_self r rs)
        · exact (List.pairwise_cons.1 hs).1 q.1 (List.mem_cons_of_mem r h2)

theorem consolidate_sorted (df : DF) (hcol : (df.hasPid || df.hasChild) = true) :
    List.Sorted startLe (consolidate_adjacent_by_pid df).rows := by
  rw [consolidate_rows_eq df hcol]
  cases hl : sortByStart df.rows with
  | nil => simp [runsBy]
  | cons r rs =>
      have hs1 : List.Sorted startLe (r :: rs) := hl ▸ sortByStart_sorted df.rows
      rw [runsBy]
      refine List.pairwise_map.2 ?_
      refine (runsByAux_pairwise df.hasPid rs r [] hs1).imp ?_
      intro p q hpq
      exact hpq

theorem consolidate_chain (df : DF) (hcol : (df.hasPid || df.hasChild) = true) :
    List.Chain' (fun a b => sameOwner df.hasPid a b = false)
      (consolidate_adjacent_by_pid df).rows := by
  rw [consolidate_rows_eq df hcol]
  cases hl : sortByStart df.rows with
  | nil => simp [runsBy]
  | cons r rs =>
      rw [runsBy]
      refine (List.chain'_map collapseRun).2 ?_
      refine (runsByAux_chain_owner df.hasPid rs r []).imp ?_
      intro p q hpq
      rw [sameOwner_collapseRun]
      exact hpq

theorem consolidate_nodup_starts (df : DF) (hcol : (df.hasPid || df.hasChild) = true)
    (hnd : (df.rows.map Row.start_ns).Nodup) :
    ((consolidate_adjacent_by_pid df).rows.map Row.start_ns).Nodup := by
  rw [consolidate_rows_eq df hcol]
  cases hl : sortByStart df.rows with
  | nil => simp [runsBy]
  | cons r rs =>
      have hs1 : List.Sorted startLe (r :: rs) := hl ▸ sortByStart_sorted df.rows
      have hnd1 : ((r :: rs).map Row.start_ns).Nodup := by
        have hperm := (sortByStart_perm df.rows).map Row.start_ns
        rw [hl] at hperm
        exact (hperm.nodup_iff).2 hnd
      have hstr : List.Pairwise startLt (r :: rs) := sorted_lt_of_nodup hs1 hnd1
      have hpair := runsByAux_pairwise_lt df.hasPid rs r [] hstr
      rw [runsBy]
      refine List.pairwise_map.2 ?_
      refine List.pairwise_map.2 ?_
      refine hpair.imp ?_
      intro p q hpq
      show ¬ (collapseRun p).start_ns = (collapseRun q).start_ns
      rw [collapseRun_start, collapseRun_start]
      exact ne_of_lt hpq

/-! Membership characterization of the grouped-merge output. -/

theorem merge_slices_rows_mem {df : DF} {gap : Int} {m : Option Int}
    (hkeys : (df.hasPid || df.hasChild || df.hasArrive) = true) {r : Row}
    (hr : r ∈ (merge_slices df gap m).rows) :
    ∃ k ∈ mergeKeys df, ∃ r0 ∈ mergeGroup gap (sortByStart (groupRows df k)),
      r = restoreArrive df.hasArrive (recomputeDuration r0) := by
  rw [merge_slices, if_pos hkeys] at hr
  simp only at hr
  rw [sortByStart_mem] at hr
  obtain ⟨r1, hr1, hre⟩ := List.mem_map.1 hr
  obtain ⟨r0, hr0, hre0⟩ := List.mem_map.1 hr1
  obtain ⟨k, hk, hkmem⟩ := List.mem_flatMap.1 hr0
  exact ⟨k, hk, r0, hkmem, by rw [← hre, ← hre0]⟩

/-- C4 (counterexample): an inverted record (start 10, end 5) is not dropped
before the merge steps: it passes coercion and the duration filter (its
duration -5 is within the ceiling 100) and enters the adjacent consolidation,
whose output still contains an interval with end_time <= start_time. -/
theorem claim_C4_counterexample :
    (prepare_pipeline rawC4 (some 100)).rows.map (fun r => (r.start_ns, r.end_ns)) =
        [(10, 5)] ∧
    ((5 : Int) ≤ 10) ∧ ¬ ((10 : Int) < 5) := by decide

/-- C4 (amended): invalid records are skipped inside the grouped merge scan
rather than before it: whenever at least one grouping column is present, every
interval emitted by merge_slices satisfies start_time < end_time, and the
skipping never surfaces as an error (the function is total). -/
theorem claim_C4 (df : DF) (gap : Int) (m : Option Int)
    (hkeys : (df.hasPid || df.hasChild || df.hasArrive) = true) :
    ∀ r ∈ (merge_slices df gap m).rows, r.start_ns < r.end_ns := by
  intro r hr
  obtain ⟨k, _, r0, hr0, hre⟩ := merge_slices_rows_mem hkeys hr
  have hv := mergeGroup_valid gap _ r0 hr0
  rw [hre, restoreArrive_start, restoreArrive_end, recompute_start, recompute_end]
  exact hv

/-- C4 (witness). -/
theorem claim_C4_witness :
    (dfC4w.hasPid || dfC4w.hasChild || dfC4w.hasArrive) = true ∧
    rowC4w.start_ns < rowC4w.end_ns :=
  ⟨by decide, claim_C4 dfC4w 0 none (by decide) rowC4w (by decide)⟩

/-- C1: in the per-group scan of the gap-tolerant merger, a valid record
merges into the pending interval iff its start_time <= pending end_time +
merge_gap (so a record starting exactly at pending end + gap merges and one
starting at pending end + gap + 1 does not); on merge the pending end becomes
the max of the two ends, otherwise the pending interval is emitted and the
record starts a new pending interval. -/
theorem claim_C1 (gap : Int) (p a b : Row) (rest : List Row)
    (ha : a.start_ns < a.end_ns) (hb : b.start_ns < b.end_ns) :
    (b.start_ns ≤ p.end_ns + gap →
      mergeLoop gap p (b :: rest) =
        mergeLoop gap { p with end_ns := max p.end_ns b.end_ns } rest) ∧
    (p.end_ns + gap < b.start_ns →
      mergeLoop gap p (b :: rest) = p :: mergeLoop gap b rest) ∧
    (b.start_ns ≤ a.end_ns + gap →
      mergeGroup gap [a, b] = [{ a with end_ns := max a.end_ns b.end_ns }]) ∧
    (b.start_ns = a.end_ns + gap →
      mergeGroup gap [a, b] = [{ a with end_ns := max a.end_ns b.end_ns }]) ∧
    (b.start_ns = a.end_ns + gap + 1 → mergeGroup gap [a, b] = [a, b]) ∧
    (a.end_ns + gap < b.start_ns → mergeGroup gap [a, b] = [a, b]) := by
  refine ⟨?_, ?_, ?_, ?_, ?_, ?_⟩
  · intro hm
    rw [mergeLoop, if_neg (by omega), if_pos hm]
  · intro hm
    rw [mergeLoop, if_neg (by omega), if_neg (by omega)]
  · intro hm
    rw [mergeGroup, if_neg (by omega), mergeLoop, if_neg (by omega), if_pos hm,
      mergeLoop]
  · intro hm
    rw [mergeGroup, if_neg (by omega), mergeLoop, if_neg (by omega),
      if_pos (by omega), mergeLoop]
  · intro hm
    rw [mergeGroup, if_neg (by omega), mergeLoop, if_neg (by omega),
      if_neg (by omega), mergeLoop]
  · intro hm
    rw [mergeGroup, if_neg (by omega), mergeLoop, if_neg (by omega),
      if_neg (by omega), mergeLoop]

/-- C1 (witness): with gap 5, the record (15, 20) starting exactly at
pending end 10 + 5 merges into (0, 10), giving (0, 20). -/
theorem claim_C1_witness :
    (0 : Int) ≤ 5 ∧
    mergeGroup 5 [mkRow (some 1) 0 10 (some 10), mkRow (some 1) 15 20 (some 5)] =
      [mkRow (some 1) 0 20 (some 10)] := by
  refine ⟨by decide, ?_⟩
  have h := (claim_C1 5 (mkRow (some 1) 0 10 (some 10)) (mkRow (some 1) 0 10 (some 10))
    (mkRow (some 1) 15 20 (some 5)) [] (by decide) (by decide)).2.2.2.1
    (by decide)
  rw [h]
  decide

/-- C3: on a start-sorted input with an owner column whose start times are
pairwise distinct, the adjacent consolidator emits exactly one interval per
maximal run of consecutive same-owner records: all fields of the first record
of the run, the end_time being the running maximum of the run end times (no
gap tolerance), and the duration recomputed as end_time minus start_time.
The two uniqueness conjuncts show that under the distinct-start hypothesis
every sorted permutation coincides at both sort points of the source, so the
conclusion does not depend on the unspecified tie order of sort_values; on
inputs with tied start times the source re-sort may permute the ties and
change the run structure, which is why the hypothesis is needed. -/
theorem claim_C3 (df : DF) (hcol : (df.hasPid || df.hasChild) = true)
    (hs : List.Sorted startLe df.rows)
    (hnd : (df.rows.map Row.start_ns).Nodup) :
    (∀ l2 : List Row, l2.Perm df.rows → List.Sorted startLe l2 → l2 = df.rows) ∧
    (consolidate_adjacent_by_pid df).rows =
      (runsBy df.hasPid df.rows).map collapseRun ∧
    (∀ l2 : List Row, l2.Perm (consolidate_adjacent_by_pid df).rows →
        List.Sorted startLe l2 → l2 = (consolidate_adjacent_by_pid df).rows) := by
  refine ⟨fun l2 hp hs2 => sorted_perm_unique hp hs2 hs hnd, ?_,
    fun l2 hp hs2 => sorted_perm_unique hp hs2 (consolidate_sorted df hcol)
      (consolidate_nodup_starts df hcol hnd)⟩
  rw [consolidate_rows_eq df hcol, sortByStart_of_sorted hs]

/-- C3 (witness). -/
theorem claim_C3_witness :
    (dfC3w.hasPid || dfC3w.hasChild) = true ∧
    List.Sorted startLe dfC3w.rows ∧
    (dfC3w.rows.map Row.start_ns).Nodup ∧
    (consolidate_adjacent_by_pid dfC3w).rows =
      [mkRow (some 1) 0 30 (some 30), mkRow (some 2) 40 50 (some 10)] := by
  have hs : List.Sorted startLe dfC3w.rows := by decide
  have hnd : (dfC3w.rows.map Row.start_ns).Nodup := by decide
  refine ⟨by decide, hs, hnd, ?_⟩
  rw [(claim_C3 dfC3w (by decide) hs hnd).2.1]
  decide

/-- C5 (counterexample): with no owner column at all the consolidator is a
passthrough, so its output need not be sorted by start_time: on `dfC5` the
output start times are [10, 0]. -/
theorem claim_C5_counterexample :
    (consolidate_adjacent_by_pid dfC5).rows.map Row.start_ns = [10, 0] ∧
    ¬ List.Sorted startLe (consolidate_adjacent_by_pid dfC5).rows := by
  constructor
  · decide
  · intro h
    have he : (consolidate_adjacent_by_pid dfC5).rows =
        [mkRow none 10 20 (some 10), mkRow none 0 4 (some 4)] := by decide
    rw [he] at h
    exact absurd (List.rel_of_sorted_cons h _ (List.mem_cons_self _ _)) (by decide)

/-- C5 (amended): whenever an owner column (pid, or child_index as fallback)
is present, the consolidator output is sorted ascending by start_time; when
additionally the input start times are pairwise distinct, so that the sorted
arrangement is unique at both sort points of the source (first conjunct
under the hypothesis) and the unspecified tie order of sort_values cannot
permute the output, no two consecutive output intervals share an owner key.
(On tied start times the final re-sort may place two same-owner runs next to
each other, so the alternation is claimed only for distinct starts.) -/
theorem claim_C5 (df : DF) (hcol : (df.hasPid || df.hasChild) = true) :
    List.Sorted startLe (consolidate_adjacent_by_pid df).rows ∧
    ((df.rows.map Row.start_ns).Nodup →
      (∀ l2 : List Row, l2.Perm (consolidate_adjacent_by_pid df).rows →
          List.Sorted startLe l2 → l2 = (consolidate_adjacent_by_pid df).rows) ∧
      List.Chain' (fun a b => sameOwner df.hasPid a b = false)
        (consolidate_adjacent_by_pid df).rows) := by
  refine ⟨consolidate_sorted df hcol, fun hnd => ⟨?_, consolidate_chain df hcol⟩⟩
  intro l2 hp hs2
  exact sorted_perm_unique hp hs2 (consolidate_sorted df hcol)
    (consolidate_nodup_starts df hcol hnd)

/-- C5 (witness). -/
theorem claim_C5_witness :
    (dfC3w.hasPid || dfC3w.hasChild) = true ∧
    (dfC3w.rows.map Row.start_ns).Nodup ∧
    List.Sorted startLe (consolidate_adjacent_by_pid dfC3w).rows ∧
    List.Chain' (fun a b => sameOwner dfC3w.hasPid a b = false)
      (consolidate_adjacent_by_pid dfC3w).rows :=
  ⟨by decide, by decide, (claim_C5 dfC3w (by decide)).1,
    ((claim_C5 dfC3w (by decide)).2 (by decide)).2⟩

/-- C6 (counterexample): a record whose duration value failed coercion (is
missing) while start 0 / end 10 are fine is dropped by the duration filter
(ceiling 100) instead of being judged by its computed duration 10 <= 100. -/
theorem claim_C6_counterexample :
    (read_and_coerce rawC6).rows.map Row.duration_ns = [none] ∧
    (read_and_coerce rawC6).rows.map (fun r => r.end_ns - r.start_ns) = [10] ∧
    ((10 : Int) ≤ 100) ∧
    (durationFilter (some 100) (read_and_coerce rawC6)).rows = [] := by decide

/-- C6 (amended): with max_duration unset every record is retained; with it
set, when the duration column is present a record is retained iff its
duration value is present and <= max (a missing duration value is dropped);
only when the whole duration column is absent is the duration first computed
as end - start and then compared. -/
theorem claim_C6 :
    (∀ df : DF, durationFilter none df = df) ∧
    (∀ (m : Int) (df : DF) (r : Row), df.hasDuration = true →
        (r ∈ (durationFilter (some m) df).rows ↔
          r ∈ df.rows ∧ ∃ d, r.duration_ns = some d ∧ d ≤ m)) ∧
    (∀ (m : Int) (df : DF) (r : Row), df.hasDuration = false →
        (r ∈ (durationFilter (some m) df).rows ↔
          ∃ r0 ∈ df.rows, r = recomputeDuration r0 ∧ r0.end_ns - r0.start_ns ≤ m)) := by
  refine ⟨fun df => rfl, ?_, ?_⟩
  · intro m df r hd
    rw [durationFilter]
    simp only [hd, if_true]
    rw [List.mem_filter]
    constructor
    · rintro ⟨h1, h2⟩
      refine ⟨h1, ?_⟩
      cases hdur : r.duration_ns with
      | none => rw [hdur] at h2; exact absurd h2 (by simp)
      | some d =>
          rw [hdur] at h2
          exact ⟨d, rfl, of_decide_eq_true h2⟩
    · rintro ⟨h1, d, hdur, hle⟩
      refine ⟨h1, ?_⟩
      rw [hdur]
      exact decide_eq_true hle
  · intro m df r hd
    rw [durationFilter]
    simp only [hd, if_false, Bool.false_eq_true]
    rw [List.mem_filter]
    constructor
    · rintro ⟨h1, h2⟩
      obtain ⟨r0, hr0, hre⟩ := List.mem_map.1 h1
      refine ⟨r0, hr0, hre.symm, ?_⟩
      rw [← hre] at h2
      exact of_decide_eq_true h2
    · rintro ⟨r0, hr0, hre, hle⟩
      refine ⟨List.mem_map.2 ⟨r0, hr0, hre.symm⟩, ?_⟩
      rw [hre]
      exact decide_eq_true hle

/-- C6 (witness). -/
theorem claim_C6_witness :
    dfC6w.hasDuration = true ∧ rowC6w ∈ (durationFilter (some 100) dfC6w).rows :=
  ⟨rfl, (claim_C6.2.1 100 dfC6w rowC6w rfl).mpr ⟨by decide, 10, rfl, by decide⟩⟩

/-- C7: the grouped merge ignores its max_duration_ns parameter entirely (its
output does not depend on it), and the pipeline applies the duration filter
only before merging: on `rawC7`, whose two rows have duration 5 <= 10, the
merged interval of duration 20 > 10 still appears in the output. -/
theorem claim_C7 :
    (∀ (df : DF) (gap : Int) (m1 m2 : Option Int),
        merge_slices df gap m1 = merge_slices df gap m2) ∧
    (prepare_pipeline rawC7 (some 10)).rows.map Row.duration_ns = [some 20] ∧
    ¬ ((20 : Int) ≤ 10) :=
  ⟨fun _ _ _ _ => rfl, by decide, by decide⟩

/-- C8: the tie-order-independent parts of the claim hold: coercion turns
every non-numeric or missing timing value into missing and never fails,
exactly the rows whose coerced start or end is missing are dropped, and the
output is a permutation of the kept rows sorted ascending by start_time.
The final conjunct documents the failing input for the stability part of the
claim: on `rawC8`, whose two kept records tie on start_time 0, the reversed
tie order is also a sorted permutation of the kept rows, i.e. everything the
source sort guarantees (sort_values with the default unstable quicksort:
a permutation sorted by the key) is satisfied by a tie order different from
the input order, so the claimed tie preservation is not implied by the code. -/
theorem claim_C8 (raw : RawDF) :
    (∀ s : String, toNum (RawCell.text s) = none) ∧
    (toNum RawCell.missing = none) ∧
    ((read_and_coerce raw).rows.Perm (keptRows raw)) ∧
    (∀ r : RawRow, (coerceRow raw r).isSome ↔
        ((toNum r.start_ns).isSome ∧ (toNum r.end_ns).isSome)) ∧
    List.Sorted startLe (read_and_coerce raw).rows ∧
    (List.Sorted startLe [mkRow (some 2) 0 7 (some 7), mkRow (some 1) 0 10 (some 10)] ∧
     ([mkRow (some 2) 0 7 (some 7), mkRow (some 1) 0 10 (some 10)]).Perm (keptRows rawC8) ∧
     [mkRow (some 2) 0 7 (some 7), mkRow (some 1) 0 10 (some 10)] ≠ keptRows rawC8) := by
  refine ⟨fun s => rfl, rfl, sortByStart_perm _, ?_, sortByStart_sorted _, by decide⟩
  intro r
  rw [coerceRow]
  cases toNum r.start_ns <;> cases toNum r.end_ns <;> simp

/-- C10 (counterexample): coercion does not recompute a present duration
column: the raw duration 99 survives although end - start is 10. -/
theorem claim_C10_counterexample :
    (read_and_coerce rawC10).rows.map Row.duration_ns = [some 99] ∧
    (read_and_coerce rawC10).rows.map (fun r => r.end_ns - r.start_ns) = [10] ∧
    some (99 : Int) ≠ some (10 : Int) := by decide

/-- C10 (amended): duration = end_time - start_time holds for coercion output
only when the input had no duration column (present raw durations are passed
through); the duration filter emits only input rows or rows whose duration it
just recomputed; and every row emitted by the adjacent consolidator (owner
column present) or the grouped merger (some key column present) satisfies the
invariant. -/
theorem claim_C10 :
    (∀ raw : RawDF, raw.hasDuration = false →
        ∀ r ∈ (read_and_coerce raw).rows, r.duration_ns = some (r.end_ns - r.start_ns)) ∧
    (∀ (m : Option Int) (df : DF), ∀ r ∈ (durationFilter m df).rows,
        r ∈ df.rows ∨ r.duration_ns = some (r.end_ns - r.start_ns)) ∧
    (∀ df : DF, (df.hasPid || df.hasChild) = true →
        ∀ r ∈ (consolidate_adjacent_by_pid df).rows,
          r.duration_ns = some (r.end_ns - r.start_ns)) ∧
    (∀ (df : DF) (gap : Int) (m : Option Int),
        (df.hasPid || df.hasChild || df.hasArrive) = true →
        ∀ r ∈ (merge_slices df gap m).rows,
          r.duration_ns = some (r.end_ns - r.start_ns)) := by
  refine ⟨?_, ?_, ?_, ?_⟩
  · intro raw hd r hr
    rw [read_and_coerce] at hr
    simp only at hr
    rw [sortByStart_mem] at hr
    obtain ⟨a, _, hcoe⟩ := List.mem_filterMap.1 hr
    rw [coerceRow] at hcoe
    cases hs : toNum a.start_ns with
    | none => rw [hs] at hcoe; exact absurd hcoe (by simp)
    | some s =>
        cases he : toNum a.end_ns with
        | none => rw [hs, he] at hcoe; exact absurd hcoe (by simp)
        | some e =>
            rw [hs, he] at hcoe
            simp only [Option.some.injEq] at hcoe
            rw [← hcoe]
            simp [hd]
  · intro m df r hr
    cases m with
    | none => exact Or.inl hr
    | some m =>
        rw [durationFilter] at hr
        simp only at hr
        by_cases hd : df.hasDuration
        · rw [if_pos hd] at hr
          exact Or.inl (List.mem_of_mem_filter hr)
        · rw [if_neg hd] at hr
          simp only at hr
          have h1 := List.mem_of_mem_filter hr
          obtain ⟨r0, _, hre⟩ := List.mem_map.1 h1
          rw [← hre]
          exact Or.inr rfl
  · intro df hcol r hr
    rw [consolidate_rows_eq df hcol] at hr
    obtain ⟨p, _, hre⟩ := List.mem_map.1 hr
    rw [← hre]
    rfl
  · intro df gap m hkeys r hr
    obtain ⟨k, _, r0, _, hre⟩ := merge_slices_rows_mem hkeys hr
    rw [hre, restoreArrive_duration, restoreArrive_start, restoreArrive_end]
    rfl

/-- C10 (witness). -/
theorem claim_C10_witness :
    (dfC3w.hasPid || dfC3w.hasChild) = true ∧
    (mkRow (some 1) 0 30 (some 30)).duration_ns =
      some ((mkRow (some 1) 0 30 (some 30)).end_ns - (mkRow (some 1) 0 30 (some 30)).start_ns) :=
  ⟨by decide, claim_C10.2.2.1 dfC3w (by decide) (mkRow (some 1) 0 30 (some 30)) (by decide)⟩

/-! Properties of the stacking layout order. -/

theorem entityIds_sorted_lt (rows : List Row) :
    List.Pairwise (fun a b : Int => a < b) (entityIds rows) := by
  have hs : List.Sorted (fun a b : Int => a ≤ b) (entityIds rows) :=
    List.sorted_insertionSort _ _
  have hnd : (entityIds rows).Nodup :=
    ((List.perm_insertionSort (fun a b : Int => a ≤ b)
      ((rows.filterMap Row.child_index).dedup)).nodup_iff).2 (List.nodup_dedup _)
  have hnd2 : List.Pairwise (fun a b : Int => a ≠ b) (entityIds rows) := hnd
  refine (hs.and hnd2).imp ?_
  intro a b hab
  exact lt_of_le_of_ne hab.1 hab.2

theorem arrivalPairs_fst_lt (rows : List Row) :
    List.Pairwise (fun p q : Int × Int => p.1 < q.1) (arrivalPairs rows) := by
  rw [arrivalPairs, List.pairwise_filterMap]
  refine (entityIds_sorted_lt rows).imp ?_
  intro a a2 hlt b hb b2 hb2
  have hb1 : b.1 = a := by
    cases hma : minArrive rows a with
    | none => rw [hma] at hb; exact absurd hb (by simp)
    | some m =>
        rw [hma] at hb
        simp only [Option.map_some'] at hb
        have hbe : (a, m) = b := Option.mem_def.1 hb |> Option.some_inj.1
        rw [← hbe]
  have hb21 : b2.1 = a2 := by
    cases hma : minArrive rows a2 with
    | none => rw [hma] at hb2; exact absurd hb2 (by simp)
    | some m =>
        rw [hma] at hb2
        simp only [Option.map_some'] at hb2
        have hbe2 : (a2, m) = b2 := Option.mem_def.1 hb2 |> Option.some_inj.1
        rw [← hbe2]
  rw [hb1, hb21]
  exact hlt

theorem pairs_sorted_perm_unique {l1 l2 : List (Int × Int)} (h : l1.Perm l2)
    (h1 : List.Sorted sndLe l1) (h2 : List.Sorted sndLe l2)
    (hnd : (l2.map Prod.snd).Nodup) : l1 = l2 := by
  have hnd1 : (l1.map Prod.snd).Nodup := ((h.map Prod.snd).nodup_iff).2 hnd
  have hstrict : ∀ {l : List (Int × Int)}, List.Sorted sndLe l →
      (l.map Prod.snd).Nodup → List.Sorted sndLt l := by
    intro l hs hn
    have hne : List.Pairwise (fun p q : Int × Int => p.2 ≠ q.2) l :=
      List.pairwise_map.1 hn
    refine (hs.and hne).imp ?_
    intro p q hpq
    exact lt_of_le_of_ne hpq.1 hpq.2
  exact List.eq_of_perm_of_sorted h (hstrict h1 hnd1) (hstrict h2 hnd)

/-- C9: the tie-order-independent parts of the claim hold: the vertical
offset is BASE_BOTTOM - stack_level * STEP clamped from below to MIN_BOTTOM;
the computed arrival order is duplicate-free (a dense 0-based rank); and
whenever the entities earliest known times (minimum over their intervals of
arrive-else-start) are pairwise distinct, every sorted-by-time permutation
of the arrival series yields the same entity order, which then equals the
spec-side (earliest time, entity id) order, so the stack levels are fully
determined.  The last conjunct documents the failing input for the tie-break
part of the claim: on `rowsC9tied` the two entities tie on earliest time 50
and the reversed entity order is also sorted by time, so everything the
source sort guarantees (sort_values with the default unstable quicksort:
a sorted permutation) admits an entity order different from the claimed
by-entity-id tie-break. -/
theorem claim_C9 :
    (∀ k : Nat, bottomOf k = max (BASE_BOTTOM - (k : ℚ) * STEP) MIN_BOTTOM) ∧
    (∀ rows : List Row, (arrivalOrder rows).Nodup) ∧
    (∀ rows : List Row, ((arrivalPairs rows).map Prod.snd).Nodup →
      arrivalOrder rows = arrivalOrderSpec rows ∧
      (∀ l2 : List (Int × Int), l2.Perm (arrivalPairs rows) →
        List.Sorted sndLe l2 → l2.map Prod.fst = arrivalOrder rows)) ∧
    (arrivalPairs rowsC9tied = [(1, 50), (2, 50)] ∧
     List.Sorted sndLe ([((2 : Int), (50 : Int)), (1, 50)] : List (Int × Int)) ∧
     (([((2 : Int), (50 : Int)), (1, 50)] : List (Int × Int))).Perm
       (arrivalPairs rowsC9tied) ∧
     (([((2 : Int), (50 : Int)), (1, 50)] : List (Int × Int))).map Prod.fst ≠
       arrivalOrder rowsC9tied) := by
  refine ⟨?_, ?_, ?_, by decide⟩
  · intro k
    rw [bottomOf]
    by_cases h : BASE_BOTTOM - (k : ℚ) * STEP < MIN_BOTTOM
    · rw [if_pos h, max_eq_right h.le]
    · rw [if_neg h, max_eq_left (not_lt.1 h)]
  · intro rows
    rw [arrivalOrder]
    refine (((List.perm_insertionSort sndLe (arrivalPairs rows)).map
      Prod.fst).nodup_iff).2 ?_
    exact List.pairwise_map.2 ((arrivalPairs_fst_lt rows).imp (fun h => ne_of_lt h))
  · intro rows hnd
    have huniq : ∀ l2 : List (Int × Int), l2.Perm (arrivalPairs rows) →
        List.Sorted sndLe l2 → l2.map Prod.fst = arrivalOrder rows := by
      intro l2 hp hs
      have hS : List.Sorted sndLe ((arrivalPairs rows).insertionSort sndLe) :=
        List.sorted_insertionSort _ _
      have hSp : ((arrivalPairs rows).insertionSort sndLe).Perm (arrivalPairs rows) :=
        List.perm_insertionSort _ _
      have hndS : (((arrivalPairs rows).insertionSort sndLe).map Prod.snd).Nodup :=
        ((hSp.map Prod.snd).nodup_iff).2 hnd
      have heq : l2 = (arrivalPairs rows).insertionSort sndLe :=
        pairs_sorted_perm_unique (hp.trans hSp.symm) hs hS hndS
      rw [heq, arrivalOrder]
    refine ⟨?_, huniq⟩
    have hle : List.Sorted sndLe ((arrivalPairs rows).insertionSort timeEntityLe) := by
      refine (List.sorted_insertionSort timeEntityLe (arrivalPairs rows)).imp ?_
      intro p q hpq
      show p.2 ≤ q.2
      rcases hpq with h | ⟨h, _⟩
      · exact le_of_lt h
      · exact le_of_eq h
    have hspec := huniq ((arrivalPairs rows).insertionSort timeEntityLe)
      (List.perm_insertionSort _ _) hle
    rw [arrivalOrderSpec, hspec]

/-- C9 (witness). -/
theorem claim_C9_witness :
    ((arrivalPairs rowsC9).map Prod.snd).Nodup ∧
    arrivalOrder rowsC9 = arrivalOrderSpec rowsC9 :=
  ⟨by decide, (claim_C9.2.2.1 rowsC9 (by decide)).1⟩

/-! Structure of the grouped-merge output. -/

theorem merge_slices_rows (df : DF) (gap : Int) (m : Option Int)
    (hkeys : (df.hasPid || df.hasChild || df.hasArrive) = true) :
    (merge_slices df gap m).rows =
      sortByStart (((((mergeKeys df).flatMap fun k =>
        mergeGroup gap (sortByStart (groupRows df k))).map recomputeDuration).map
          (restoreArrive df.hasArrive))) := by
  rw [merge_slices, if_pos hkeys]

theorem merge_slices_hasPid (df : DF) (gap : Int) (m : Option Int) :
    (merge_slices df gap m).hasPid = df.hasPid := by
  rw [merge_slices]; split <;> rfl

theorem merge_slices_hasChild (df : DF) (gap : Int) (m : Option Int) :
    (merge_slices df gap m).hasChild = df.hasChild := by
  rw [merge_slices]; split <;> rfl

theorem merge_slices_hasArrive (df : DF) (gap : Int) (m : Option Int) :
    (merge_slices df gap m).hasArrive = df.hasArrive := by
  rw [merge_slices]; split <;> rfl

theorem groupRows_key {df : DF} {k : Option Int × Option Int × Option Int} :
    ∀ r ∈ groupRows df k, keyOf df.hasPid df.hasChild df.hasArrive r = some k := by
  intro r hr
  exact of_decide_eq_true (List.mem_filter.1 hr).2

theorem groupRows_arrive {df : DF} {k : Option Int × Option Int × Option Int}
    (ha : df.hasArrive = true) : ∀ r ∈ groupRows df k, r.arrive_ns ≠ none := by
  intro r hr
  have h1 := List.mem_of_mem_filter hr
  obtain ⟨r0, _, hre⟩ := List.mem_map.1 h1
  rw [← hre, ha]
  exact fillArrive_arrive_ne_none r0

theorem mergeGroup_group_key (df : DF) (gap : Int)
    (k : Option Int × Option Int × Option Int) :
    ∀ x ∈ mergeGroup gap (sortByStart (groupRows df k)),
      keyOf df.hasPid df.hasChild df.hasArrive x = some k := by
  refine mergeGroup_forall gap _ ?_ _ ?_
  · intro a e h
    rw [keyOf_setEnd]
    exact h
  · intro r hr
    exact groupRows_key r (sortByStart_mem.1 hr)

theorem mergeGroup_group_arrive (df : DF) (gap : Int)
    (k : Option Int × Option Int × Option Int) (ha : df.hasArrive = true) :
    ∀ x ∈ mergeGroup gap (sortByStart (groupRows df k)), x.arrive_ns ≠ none := by
  refine mergeGroup_forall gap _ ?_ _ ?_
  · intro a e h
    exact h
  · intro r hr
    exact groupRows_arrive ha r (sortByStart_mem.1 hr)

theorem outKey_restore_recompute (df : DF) (x : Row)
    (hx : df.hasArrive = true → x.arrive_ns ≠ none) :
    outKey df (restoreArrive df.hasArrive (recomputeDuration x)) =
      keyOf df.hasPid df.hasChild df.hasArrive x := by
  have h2 : fillArrive df.hasArrive (restoreArrive df.hasArrive (recomputeDuration x)) =
      recomputeDuration x :=
    fill_restore_id _ _ (fun ha => by rw [recompute_arrive]; exact hx ha)
  rw [outKey, h2, keyOf_recompute]

theorem merge_slices_filter_key (df : DF) (gap : Int) (m : Option Int)
    (hkeys : (df.hasPid || df.hasChild || df.hasArrive) = true) (hgap : 0 ≤ gap)
    (k : Option Int × Option Int × Option Int) :
    (merge_slices df gap m).rows.filter (fun r => decide (outKey df r = some k)) =
      if k ∈ mergeKeys df then
        (mergeGroup gap (sortByStart (groupRows df k))).map
          (fun x => restoreArrive df.hasArrive (recomputeDuration x))
      else [] := by
  set M := (mergeKeys df).flatMap fun k2 =>
    mergeGroup gap (sortByStart (groupRows df k2)) with hM
  have hxmem : ∀ x ∈ M, df.hasArrive = true → x.arrive_ns ≠ none := by
    intro x hx ha
    obtain ⟨k2, _, hxg⟩ := List.mem_flatMap.1 hx
    exact mergeGroup_group_arrive df gap k2 ha x hxg
  have hcomp : (M.map recomputeDuration).map (restoreArrive df.hasArrive) =
      M.map (fun x => restoreArrive df.hasArrive (recomputeDuration x)) := by
    rw [List.map_map]
    rfl
  have hfil : (((M.map recomputeDuration).map (restoreArrive df.hasArrive))).filter
      (fun r => decide (outKey df r = some k)) =
      (M.filter (fun x =>
        decide (keyOf df.hasPid df.hasChild df.hasArrive x = some k))).map
        (fun x => restoreArrive df.hasArrive (recomputeDuration x)) := by
    rw [hcomp, List.filter_map]
    rw [List.filter_congr (fun x hx => ?_)]
    show decide (outKey df ((fun x => restoreArrive df.hasArrive (recomputeDuration x)) x)
        = some k) = decide (keyOf df.hasPid df.hasChild df.hasArrive x = some k)
    rw [show ((fun x => restoreArrive df.hasArrive (recomputeDuration x)) x) =
      restoreArrive df.hasArrive (recomputeDuration x) from rfl]
    rw [outKey_restore_recompute df x (hxmem x hx)]
  have hperm1 : ((merge_slices df gap m).rows.filter
      (fun r => decide (outKey df r = some k))).Perm
      ((((M.map recomputeDuration).map (restoreArrive df.hasArrive))).filter
        (fun r => decide (outKey df r = some k))) := by
    rw [merge_slices_rows df gap m hkeys, ← hM]
    exact (sortByStart_perm _).filter _
  by_cases hk : k ∈ mergeKeys df
  · rw [if_pos hk]
    have hflat : M.filter (fun x =>
        decide (keyOf df.hasPid df.hasChild df.hasArrive x = some k)) =
        mergeGroup gap (sortByStart (groupRows df k)) := by
      rw [hM]
      exact flatMap_filter_eq_of_mem (keyOf df.hasPid df.hasChild df.hasArrive) _
        (mergeKeys df) (nodup_firstOccur _)
        (fun k2 _ x hx => mergeGroup_group_key df gap k2 x hx) hk
    have heq2 : (((M.map recomputeDuration).map (restoreArrive df.hasArrive))).filter
        (fun r => decide (outKey df r = some k)) =
        (mergeGroup gap (sortByStart (groupRows df k))).map
          (fun x => restoreArrive df.hasArrive (recomputeDuration x)) := by
      rw [hfil, hflat]
    have hperm : ((merge_slices df gap m).rows.filter
        (fun r => decide (outKey df r = some k))).Perm
        ((mergeGroup gap (sortByStart (groupRows df k))).map
          (fun x => restoreArrive df.hasArrive (recomputeDuration x))) := by
      rw [← heq2]
      exact hperm1
    have hstrictR : List.Sorted startLt
        ((mergeGroup gap (sortByStart (groupRows df k))).map
          (fun x => restoreArrive df.hasArrive (recomputeDuration x))) := by
      refine List.pairwise_map.2 ?_
      refine (mergeGroup_sorted_strict gap hgap _ (sortByStart_sorted _)).imp ?_
      intro a b hab
      show (restoreArrive df.hasArrive (recomputeDuration a)).start_ns <
        (restoreArrive df.hasArrive (recomputeDuration b)).start_ns
      rw [restoreArrive_start, restoreArrive_start, recompute_start, recompute_start]
      exact hab
    have hsortedL : List.Sorted startLe ((merge_slices df gap m).rows.filter
        (fun r => decide (outKey df r = some k))) := by
      rw [merge_slices_rows df gap m hkeys]
      exact (sortByStart_sorted _).filter _
    have hndR : (((mergeGroup gap (sortByStart (groupRows df k))).map
        (fun x => restoreArrive df.hasArrive (recomputeDuration x))).map
          Row.start_ns).Nodup := by
      refine List.pairwise_map.2 ?_
      refine List.pairwise_map.2 ?_
      refine (mergeGroup_sorted_strict gap hgap _ (sortByStart_sorted _)).imp ?_
      intro a b hab
      show ¬ (restoreArrive df.hasArrive (recomputeDuration a)).start_ns =
        (restoreArrive df.hasArrive (recomputeDuration b)).start_ns
      rw [restoreArrive_start, restoreArrive_start, recompute_start, recompute_start]
      exact ne_of_lt hab
    have hndL : (((merge_slices df gap m).rows.filter
        (fun r => decide (outKey df r = some k))).map Row.start_ns).Nodup :=
      ((hperm.map Row.start_ns).nodup_iff).2 hndR
    exact List.eq_of_perm_of_sorted hperm (sorted_lt_of_nodup hsortedL hndL) hstrictR
  · rw [if_neg hk]
    have hflat : M.filter (fun x =>
        decide (keyOf df.hasPid df.hasChild df.hasArrive x = some k)) = [] := by
      rw [hM]
      exact flatMap_filter_eq_of_not_mem (keyOf df.hasPid df.hasChild df.hasArrive) _
        (mergeKeys df) (nodup_firstOccur _)
        (fun k2 _ x hx => mergeGroup_group_key df gap k2 x hx) hk
    have heq2 : (((M.map recomputeDuration).map (restoreArrive df.hasArrive))).filter
        (fun r => decide (outKey df r = some k)) = [] := by
      rw [hfil, hflat]
      rfl
    have hpn : ((merge_slices df gap m).rows.filter
        (fun r => decide (outKey df r = some k))).Perm [] := by
      rw [← heq2]
      exact hperm1
    exact hpn.eq_nil

/-! Idempotence of the grouped merge. -/

theorem mem_mergeKeys {df : DF} {k : Option Int × Option Int × Option Int} :
    k ∈ mergeKeys df ↔ ∃ r ∈ df.rows, outKey df r = some k := by
  rw [mergeKeys, mem_firstOccur, List.mem_filterMap]
  constructor
  · rintro ⟨a, ha, hka⟩
    obtain ⟨r, hr, hre⟩ := List.mem_map.1 ha
    exact ⟨r, hr, by rw [outKey, hre]; exact hka⟩
  · rintro ⟨r, hr, hkr⟩
    exact ⟨fillArrive df.hasArrive r, List.mem_map.2 ⟨r, hr, rfl⟩, hkr⟩

theorem merge_slices_outKey (df : DF) (gap : Int) (m : Option Int)
    (hkeys : (df.hasPid || df.hasChild || df.hasArrive) = true) :
    ∀ r ∈ (merge_slices df gap m).rows, ∃ k ∈ mergeKeys df, outKey df r = some k := by
  intro r hr
  obtain ⟨k, hk, x, hx, hre⟩ := merge_slices_rows_mem hkeys hr
  refine ⟨k, hk, ?_⟩
  rw [hre, outKey_restore_recompute df x
    (fun ha => mergeGroup_group_arrive df gap k ha x hx)]
  exact mergeGroup_group_key df gap k x hx

theorem outKey_merge_slices (df : DF) (gap : Int) (m : Option Int) (r : Row) :
    outKey (merge_slices df gap m) r = outKey df r := by
  rw [outKey, outKey, merge_slices_hasPid, merge_slices_hasChild,
    merge_slices_hasArrive]

theorem groupRows_merge_slices (df : DF) (gap : Int) (m : Option Int)
    (k : Option Int × Option Int × Option Int) :
    groupRows (merge_slices df gap m) k =
      ((merge_slices df gap m).rows.filter
        (fun r => decide (outKey df r = some k))).map (fillArrive df.hasArrive) := by
  rw [groupRows, merge_slices_hasPid, merge_slices_hasChild, merge_slices_hasArrive,
    List.filter_map]
  rfl

theorem merge_slices_group_idem (df : DF) (gap : Int) (m : Option Int)
    (hkeys : (df.hasPid || df.hasChild || df.hasArrive) = true) (hgap : 0 ≤ gap)
    (k : Option Int × Option Int × Option Int) (hk : k ∈ mergeKeys df) :
    mergeGroup gap (sortByStart (groupRows (merge_slices df gap m) k)) =
      (mergeGroup gap (sortByStart (groupRows df k))).map recomputeDuration := by
  set G := mergeGroup gap (sortByStart (groupRows df k)) with hG
  have harr : ∀ x ∈ G, df.hasArrive = true → x.arrive_ns ≠ none := by
    intro x hx ha
    exact mergeGroup_group_arrive df gap k ha x (hG ▸ hx)
  have h1 : groupRows (merge_slices df gap m) k = G.map recomputeDuration := by
    rw [groupRows_merge_slices df gap m k,
      merge_slices_filter_key df gap m hkeys hgap k, if_pos hk, ← hG, List.map_map]
    refine List.map_congr_left ?_
    intro x hx
    show fillArrive df.hasArrive (restoreArrive df.hasArrive (recomputeDuration x)) =
      recomputeDuration x
    exact fill_restore_id _ _
      (fun ha => by rw [recompute_arrive]; exact harr x hx ha)
  rw [h1]
  have hstrG : List.Sorted startLt G :=
    hG ▸ mergeGroup_sorted_strict gap hgap _ (sortByStart_sorted _)
  have hsorted2 : List.Sorted startLe (G.map recomputeDuration) := by
    refine List.pairwise_map.2 ?_
    refine hstrG.imp ?_
    intro a b hab
    show (recomputeDuration a).start_ns ≤ (recomputeDuration b).start_ns
    rw [recompute_start, recompute_start]
    exact le_of_lt hab
  rw [sortByStart_of_sorted hsorted2]
  refine mergeGroup_id gap _ ?_ ?_
  · refine List.pairwise_map.2 ?_
    refine (hG ▸ mergeGroup_sep gap (sortByStart (groupRows df k))
      (sortByStart_sorted _)).imp ?_
    intro a b hab
    show sepBy gap (recomputeDuration a) (recomputeDuration b)
    unfold sepBy at hab ⊢
    rw [recompute_start, recompute_end]
    exact hab
  · intro r hr
    obtain ⟨x, hx, hre⟩ := List.mem_map.1 hr
    rw [← hre, recompute_start, recompute_end]
    exact mergeGroup_valid gap _ x (hG ▸ hx)

theorem mergeKeys_merge_slices_subset (df : DF) (gap : Int) (m : Option Int)
    (hkeys : (df.hasPid || df.hasChild || df.hasArrive) = true) :
    ∀ k ∈ mergeKeys (merge_slices df gap m), k ∈ mergeKeys df := by
  intro k hk
  obtain ⟨r, hr, hko⟩ := mem_mergeKeys.1 hk
  rw [outKey_merge_slices] at hko
  obtain ⟨k2, hk2, hout⟩ := merge_slices_outKey df gap m hkeys r hr
  rw [hout] at hko
  rw [← Option.some_inj.1 hko]
  exact hk2

/-- C2: for every input and non-negative merge gap, the grouped merge is
tolerance-maximal (whenever grouping keys exist, no two emitted intervals of
the same group are within merge_gap of each other: each fixed group is
pairwise separated) and idempotent (running merge_slices on its own output
yields the same set of intervals). -/
theorem claim_C2 (df : DF) (gap : Int) (m : Option Int) (hgap : 0 ≤ gap) :
    ((df.hasPid || df.hasChild || df.hasArrive) = true →
      ∀ k, List.Pairwise (sepBy gap)
        ((merge_slices df gap m).rows.filter
          (fun r => decide (outKey df r = some k)))) ∧
    (merge_slices (merge_slices df gap m) gap m).rows.Perm
      (merge_slices df gap m).rows := by
  constructor
  · intro hkeys k
    rw [merge_slices_filter_key df gap m hkeys hgap k]
    by_cases hk : k ∈ mergeKeys df
    · rw [if_pos hk]
      refine List.pairwise_map.2 ?_
      refine (mergeGroup_sep gap _ (sortByStart_sorted _)).imp ?_
      intro a b hab
      show sepBy gap (restoreArrive df.hasArrive (recomputeDuration a))
        (restoreArrive df.hasArrive (recomputeDuration b))
      unfold sepBy at hab ⊢
      rw [restoreArrive_end, restoreArrive_start, recompute_end, recompute_start]
      exact hab
    · rw [if_neg hk]
      exact List.Pairwise.nil
  · by_cases hkeys : (df.hasPid || df.hasChild || df.hasArrive) = true
    · have hkeysO : ((merge_slices df gap m).hasPid ||
          (merge_slices df gap m).hasChild ||
          (merge_slices df gap m).hasArrive) = true := by
        rw [merge_slices_hasPid, merge_slices_hasChild, merge_slices_hasArrive]
        exact hkeys
      rw [merge_slices_rows (merge_slices df gap m) gap m hkeysO]
      refine ((sortByStart_perm _).trans ?_)
      have hM2eq : ((mergeKeys (merge_slices df gap m)).flatMap fun k =>
          mergeGroup gap (sortByStart (groupRows (merge_slices df gap m) k))) =
          (mergeKeys (merge_slices df gap m)).flatMap fun k =>
            (mergeGroup gap (sortByStart (groupRows df k))).map recomputeDuration := by
        refine flatMap_congr_mem ?_
        intro k hk
        exact merge_slices_group_idem df gap m hkeys hgap k
          (mergeKeys_merge_slices_subset df gap m hkeys k hk)
      rw [hM2eq]
      have hrec : ((mergeKeys (merge_slices df gap m)).flatMap fun k =>
          (mergeGroup gap (sortByStart (groupRows df k))).map recomputeDuration).map
            recomputeDuration =
          (mergeKeys (merge_slices df gap m)).flatMap fun k =>
            (mergeGroup gap (sortByStart (groupRows df k))).map recomputeDuration := by
        rw [List.map_flatMap]
        refine flatMap_congr_mem ?_
        intro k _
        rw [List.map_map]
        refine List.map_congr_left ?_
        intro x _
        exact recompute_idem x
      rw [hrec]
      have hA : (merge_slices df gap m).hasArrive = df.hasArrive :=
        merge_slices_hasArrive df gap m
      rw [hA, List.map_flatMap]
      have hgroups : ((mergeKeys (merge_slices df gap m)).flatMap fun k =>
          ((mergeGroup gap (sortByStart (groupRows df k))).map recomputeDuration).map
            (restoreArrive df.hasArrive)) =
          (mergeKeys (merge_slices df gap m)).flatMap fun k =>
            (merge_slices df gap m).rows.filter
              (fun r => decide (outKey df r = some k)) := by
        refine flatMap_congr_mem ?_
        intro k hk
        have hkin : k ∈ mergeKeys df :=
          mergeKeys_merge_slices_subset df gap m hkeys k hk
        rw [merge_slices_filter_key df gap m hkeys hgap k, if_pos hkin, List.map_map]
        rfl
      rw [hgroups]
      have hcov : ∀ r ∈ (merge_slices df gap m).rows, ∀ k,
          outKey df r = some k → k ∈ mergeKeys (merge_slices df gap m) := by
        intro r hr k hkr
        refine mem_mergeKeys.2 ⟨r, hr, ?_⟩
        rw [outKey_merge_slices]
        exact hkr
      have hpart := partition_perm (outKey df) (mergeKeys (merge_slices df gap m))
        (merge_slices df gap m).rows (nodup_firstOccur _) hcov
      refine hpart.trans ?_
      rw [List.filter_eq_self.2 ?_]
      · intro r hr
        obtain ⟨k2, _, hout⟩ := merge_slices_outKey df gap m hkeys r hr
        rw [hout]
        rfl
    · have hP : df.hasPid = false ∧ df.hasChild = false ∧ df.hasArrive = false := by
        simp only [Bool.or_eq_true, not_or, Bool.not_eq_true] at hkeys
        exact ⟨hkeys.1.1, hkeys.1.2, hkeys.2⟩
      have hrows : df.rows.map (fillArrive df.hasArrive) = df.rows := by
        rw [hP.2.2]
        calc df.rows.map (fillArrive false)
            = df.rows.map (fun r => r) := List.map_congr_left (fun r _ => rfl)
          _ = df.rows := List.map_id' df.rows
      have hO : merge_slices df gap m = df := by
        rw [merge_slices, if_neg hkeys, hrows]
      rw [hO, hO]

/-- C2 (witness). -/
theorem claim_C2_witness :
    (0 : Int) ≤ 5 ∧
    List.Pairwise (sepBy 5) ((merge_slices dfC2w 5 none).rows.filter
      (fun r => decide (outKey dfC2w r = some (some 1, none, none)))) ∧
    (merge_slices (merge_slices dfC2w 5 none) 5 none).rows.Perm
      (merge_slices dfC2w 5 none).rows :=
  ⟨by decide, (claim_C2 dfC2w 5 none (by decide)).1 (by decide) (some 1, none, none),
    (claim_C2 dfC2w 5 none (by decide)).2⟩
